import Mathlib

/-!
Peer-review entry normalisation and merge (`assets/js/peer-reviews.js`)

A shallow embedding of `slugify`, `uniqueSortedYears`, `parseEntry`,
`findMatchingManual` and `mergeEntries`, and of `normaliseSummary` and
`aggregatePeerReviews` of `api/peer-reviews/latest.js`, which build the remote
feed, followed by the properties proved about them.

Modelling conventions
* A JavaScript `Set` is the list of its members in insertion order, a `Map`
  the list of its key/value pairs in insertion order.
* Finite JavaScript numbers are the integers `ℤ` (years are whole numbers;
  fractions and the distinction between `0` and `-0`, which a `Set` does not
  make either, are left out); `NaN` and the two infinities are separate
  constructors of `JSNum`.
* Raw entries are JSON objects whose text fields are optional strings, whose
  `lastReviewed` is an optional number and whose `years` is an optional array
  of loosely typed JSON scalars (they go through `Number(...)` in the code).
  `none` stands for an absent / `null` field (or, for an array field, a value
  for which `Array.isArray` is false).
* Built-ins that depend on Unicode tables or on the locale
  (`String.prototype.normalize`, `toLowerCase`, `localeCompare`, and the
  string-to-number conversion) are fields of a `Platform` record.
* `Array.prototype.sort` is the stable insertion sort driven by the sign of
  the comparator.
-/

namespace PeerReviews

/-! ## JavaScript values -/

/-- A JavaScript number: a finite value, `NaN`, `Infinity` or `-Infinity`. -/
inductive JSNum where
  | fin (n : Int)
  | nan
  | posInf
  | negInf
  deriving DecidableEq, Repr

/-- A loosely typed JSON scalar, as found inside a `years` array or in place
of an entry. -/
inductive JSVal where
  | undefined
  | null
  | bool (b : Bool)
  | num (n : JSNum)
  | str (s : String)
  deriving DecidableEq, Repr

/-- The built-ins whose results come from Unicode or locale tables. -/
structure Platform where
  /-- The result of `Number(s)` on a string `s`. -/
  stringToNumber : String → JSNum
  /-- The result of `s.normalize('NFKD')`. -/
  normalizeNFKD : String → String
  /-- The result of `s.toLowerCase()`. -/
  toLowerCase : String → String
  /-- The result of `a.localeCompare(b)`: negative, zero or positive. -/
  localeCompare : String → String → Int

/-- The coercion `Number(value)`. -/
def toNumber (P : Platform) : JSVal → JSNum
  | .undefined => .nan
  | .null => .fin 0
  | .bool true => .fin 1
  | .bool false => .fin 0
  | .num n => n
  | .str s => P.stringToNumber s

/-- The step `Number.isFinite(n) ? n : null`, with `null` as `none`. -/
def finiteOrNull : JSNum → Option Int
  | .fin n => some n
  | _ => none

/-- The expression `a || b` for an optional string `a` and a string `b`. -/
def strOr (a : Option String) (b : String) : String :=
  match a with
  | some s => if s ≠ "" then s else b
  | none => b

/-- The expression `a || b` for two strings. -/
def orElseStr (a b : String) : String := if a ≠ "" then a else b

/-- The expression `a || null` for an optional string. -/
def strOrNull : Option String → Option String
  | some s => if s ≠ "" then some s else none
  | none => none

/-- The expression `a || null` for an optional number: `0` and absent are
falsy. -/
def numOrNull : Option Int → Option Int
  | some n => if n ≠ 0 then some n else none
  | none => none

/-- The expression `a || 0` for an optional number. -/
def numOrZero : Option Int → Int
  | some n => n
  | none => 0

/-! ## Sets, maps and sorting -/

/-- The method `Set.prototype.add`: a member already present stays where it is. -/
def setAdd {α : Type} [DecidableEq α] (s : List α) (x : α) : List α :=
  if x ∈ s then s else s ++ [x]

/-- The expression `Array.from(new Set(xs))`: members in order of first
occurrence. -/
def arrayFromSet {α : Type} [DecidableEq α] (xs : List α) : List α :=
  xs.foldl setAdd []

/-- The method `Map.prototype.has`. -/
def mapHas {β : Type} (m : List (String × β)) (k : String) : Bool :=
  m.any (fun p => p.1 == k)

/-- The method `Map.prototype.get`, with `undefined` as `none`. -/
def mapGet {β : Type} (m : List (String × β)) (k : String) : Option β :=
  match m with
  | [] => none
  | p :: rest => if p.1 = k then some p.2 else mapGet rest k

/-- The method `Map.prototype.set`: an existing key keeps its position and
takes the new value, a new key is appended. -/
def mapSet {β : Type} (m : List (String × β)) (k : String) (v : β) : List (String × β) :=
  match m with
  | [] => [(k, v)]
  | p :: rest => if p.1 = k then (k, v) :: rest else p :: mapSet rest k v

/-- The method `Map.prototype.values`, in insertion order. -/
def mapValues {β : Type} (m : List (String × β)) : List β := m.map Prod.snd

/-- The method `Array.prototype.sort(cmp)`: stable, `a` goes before `b` when
`cmp a b ≤ 0`. -/
def sortBy {α : Type} (cmp : α → α → Int) (xs : List α) : List α :=
  List.insertionSort (fun a b => cmp a b ≤ 0) xs

/-! ## slugify -/

/-- The character class of the first `replace`: the combining marks
U+0300 to U+036F. -/
def isCombiningMark (c : Char) : Bool :=
  decide (0x300 ≤ c.toNat) && decide (c.toNat ≤ 0x36f)

/-- The character class `[a-z0-9]`. -/
def isSlugChar (c : Char) : Bool :=
  (decide (97 ≤ c.toNat) && decide (c.toNat ≤ 122)) ||
  (decide (48 ≤ c.toNat) && decide (c.toNat ≤ 57))

/-- The step `.replace(/[^a-z0-9]+/g, '-')`; the flag tells whether the
previous character belonged to a run that has already produced its hyphen. -/
def replaceRuns : Bool → List Char → List Char
  | _, [] => []
  | inRun, c :: cs =>
    if isSlugChar c then c :: replaceRuns false cs
    else if inRun then replaceRuns true cs
    else '-' :: replaceRuns true cs

/-- The step `.replace(/^-+|-+$/g, '')`. -/
def trimHyphens (cs : List Char) : List Char :=
  ((cs.dropWhile (fun c => c == '-')).reverse.dropWhile (fun c => c == '-')).reverse

/-- The function `slugify(text)` on a string. -/
def slugify (P : Platform) (text : String) : String :=
  let normalized := P.normalizeNFKD text
  let stripped := String.mk (normalized.data.filter (fun c => !isCombiningMark c))
  let lowered := P.toLowerCase stripped
  String.mk ((trimHyphens (replaceRuns false lowered.data)).take 120)

/-! ## uniqueSortedYears -/

/-- The function `uniqueSortedYears(years)`; `none` is an argument that is not
an array. -/
def uniqueSortedYears (P : Platform) (years : Option (List JSVal)) : List Int :=
  let input := match years with
    | some xs => xs
    | none => []
  sortBy (fun a b => b - a)
    (arrayFromSet (input.filterMap (fun value => finiteOrNull (toNumber P value))))

/-! ## Entries -/

/-- A raw entry: a JSON object of the manual dataset or of the remote feed. -/
structure RawEntry where
  id : Option String := none
  name : Option String := none
  organization : Option String := none
  role : Option String := none
  reviewRole : Option String := none
  years : Option (List JSVal) := none
  lastReviewed : Option Int := none
  url : Option String := none
  source : Option String := none
  groupIds : Option (List String) := none
  aliases : Option (List String) := none
  putCodes : Option (List String) := none
  deriving DecidableEq, Repr

/-- An element of an input list: an object, or anything else. -/
inductive RawItem where
  | obj (e : RawEntry)
  | other (v : JSVal)
  deriving DecidableEq, Repr

/-- A canonical entry, the object built by `parseEntry`. -/
structure Entry where
  id : String
  name : String
  organization : String
  role : String
  years : List Int
  lastReviewed : Option Int
  url : Option String
  source : String
  groupIds : List String
  aliases : List String
  putCodes : List String
  deriving DecidableEq, Repr

/-- An array of numbers seen as an array of JSON scalars. -/
def yearsAsValues (years : List Int) : Option (List JSVal) :=
  some (years.map (fun n => JSVal.num (JSNum.fin n)))

/-- A canonical entry read back as a raw object (it has no `reviewRole`). -/
def Entry.toRaw (e : Entry) : RawEntry :=
  { id := some e.id
    name := some e.name
    organization := some e.organization
    role := some e.role
    reviewRole := none
    years := yearsAsValues e.years
    lastReviewed := e.lastReviewed
    url := e.url
    source := some e.source
    groupIds := some e.groupIds
    aliases := some e.aliases
    putCodes := some e.putCodes }

/-- The expression `Array.isArray(xs) ? Array.from(new Set(xs.filter(Boolean))) : []`. -/
def cleanStrings : Option (List String) → List String
  | some xs => arrayFromSet (xs.filter (fun s => decide (s ≠ "")))
  | none => []

/-- The expression `entry.groupIds?.[0]`. -/
def firstGroupId (entry : RawEntry) : Option String :=
  match entry.groupIds with
  | some (g :: _) => some g
  | _ => none

/-- The function `parseEntry(entry, defaultSource)`; `none` is `null`. -/
def parseEntry (P : Platform) (item : RawItem) (defaultSource : String) : Option Entry :=
  match item with
  | .other _ => none
  | .obj entry =>
    let years := uniqueSortedYears P entry.years
    let normalized : Entry :=
      { id := strOr entry.id
          (slugify P (strOr entry.name (strOr entry.organization (strOr (firstGroupId entry) ""))))
        name := strOr entry.name ""
        organization := strOr entry.organization ""
        role := strOr entry.role (strOr entry.reviewRole "")
        years := years
        lastReviewed := (numOrNull entry.lastReviewed).orElse (fun _ => numOrNull years.head?)
        url := strOrNull entry.url
        source := strOr entry.source defaultSource
        groupIds := cleanStrings entry.groupIds
        aliases := cleanStrings entry.aliases
        putCodes := cleanStrings entry.putCodes }
    if normalized.id = "" then
      some { normalized with
        id := slugify P (normalized.name ++ "-" ++ normalized.organization) }
    else
      some normalized

/-! ## findMatchingManual -/

/-- The test `xs.some(x => ys.includes(x))`. -/
def sharesElement (xs ys : List String) : Bool :=
  xs.any (fun x => ys.contains x)

/-- The loop of `findMatchingManual` over the candidates. -/
def scanCandidates (P : Platform) (remoteEntry : Entry) : List Entry → Option Entry
  | [] => none
  | candidate :: rest =>
    if remoteEntry.name ≠ "" ∧ candidate.name ≠ "" ∧
        P.toLowerCase remoteEntry.name = P.toLowerCase candidate.name then
      some candidate
    else if sharesElement remoteEntry.groupIds candidate.groupIds then some candidate
    else if sharesElement remoteEntry.aliases candidate.aliases then some candidate
    else scanCandidates P remoteEntry rest

/-- The function `findMatchingManual(remoteEntry, manualIndex)`. -/
def findMatchingManual (P : Platform) (remoteEntry : Entry)
    (manualIndex : List (String × Entry)) : Option Entry :=
  if mapHas manualIndex remoteEntry.id then mapGet manualIndex remoteEntry.id
  else scanCandidates P remoteEntry (mapValues manualIndex)

/-! ## mergeEntries -/

/-- The first loop of `mergeEntries`: the index of the parsed manual entries. -/
def buildManualIndex (P : Platform) (manualEntries : List RawItem) : List (String × Entry) :=
  manualEntries.foldl
    (fun manualIndex manual =>
      match parseEntry P manual "manual" with
      | some parsed => mapSet manualIndex parsed.id parsed
      | none => manualIndex)
    []

/-- The object `mergedEntry` built for a matched pair. -/
def mergePair (P : Platform) (manualMatch parsedRemote : Entry) : Entry :=
  let years := uniqueSortedYears P
    (yearsAsValues (manualMatch.years ++ parsedRemote.years))
  { id := orElseStr parsedRemote.id manualMatch.id
    name := orElseStr parsedRemote.name manualMatch.name
    organization := orElseStr parsedRemote.organization manualMatch.organization
    role := orElseStr parsedRemote.role manualMatch.role
    years := years
    lastReviewed := (numOrNull parsedRemote.lastReviewed).orElse (fun _ =>
      (numOrNull manualMatch.lastReviewed).orElse (fun _ => numOrNull years.head?))
    url := (strOrNull parsedRemote.url).orElse (fun _ => strOrNull manualMatch.url)
    source :=
      if parsedRemote.source = "remote" ∧ manualMatch.source = "manual" then "merged"
      else parsedRemote.source
    groupIds := arrayFromSet (manualMatch.groupIds ++ parsedRemote.groupIds)
    aliases := arrayFromSet (manualMatch.aliases ++ parsedRemote.aliases)
    putCodes := arrayFromSet (manualMatch.putCodes ++ parsedRemote.putCodes) }

/-- The state of the second loop: the array `merged` and the set
`consumedManual`. -/
structure MergeState where
  merged : List Entry
  consumedManual : List String
  deriving DecidableEq, Repr

/-- One iteration of the loop over the remote entries. -/
def remoteStep (P : Platform) (manualIndex : List (String × Entry))
    (st : MergeState) (remote : RawItem) : MergeState :=
  match parseEntry P remote "remote" with
  | none => st
  | some parsedRemote =>
    match findMatchingManual P parsedRemote manualIndex with
    | some manualMatch =>
      { merged := st.merged ++ [mergePair P manualMatch parsedRemote]
        consumedManual := setAdd st.consumedManual manualMatch.id }
    | none => { st with merged := st.merged ++ [parsedRemote] }

/-- The loop over the remote entries. -/
def processRemote (P : Platform) (manualIndex : List (String × Entry))
    (remoteEntries : List RawItem) : MergeState :=
  remoteEntries.foldl (remoteStep P manualIndex) { merged := [], consumedManual := [] }

/-- The third loop: the manual entries whose key was not consumed. -/
def leftoverManual (manualIndex : List (String × Entry)) (consumedManual : List String) :
    List Entry :=
  (manualIndex.filter (fun p => !(consumedManual.contains p.1))).map Prod.snd

/-- The callback of the final `.map(...)`. -/
def finalizeEntry (P : Platform) (entry : Entry) : Entry :=
  { entry with
    years := uniqueSortedYears P (yearsAsValues entry.years)
    lastReviewed := (numOrNull entry.lastReviewed).orElse (fun _ => numOrNull entry.years.head?) }

/-- The comparator of the final `.sort(...)`. -/
def compareEntries (P : Platform) (a b : Entry) : Int :=
  let aYear := numOrZero a.lastReviewed
  let bYear := numOrZero b.lastReviewed
  if aYear ≠ bYear then bYear - aYear
  else P.localeCompare a.name b.name

/-- The function `mergeEntries(manualEntries, remoteEntries)`. -/
def mergeEntries (P : Platform) (manualEntries remoteEntries : List RawItem) : List Entry :=
  let manualIndex := buildManualIndex P manualEntries
  let st := processRemote P manualIndex remoteEntries
  let merged := st.merged ++ leftoverManual manualIndex st.consumedManual
  sortBy (compareEntries P) (merged.map (finalizeEntry P))

/-! ## The remote feed (`api/peer-reviews/latest.js`)

The feed is built on the server by `normaliseSummary` and
`aggregatePeerReviews` from the registry payload; its `slugify` and its sort
comparator are the same code as in `peer-reviews.js`, so `slugify` and
`compareEntries` stand for both. A payload is the list of its groups
(`ensureArray` applied), a group the list of its summaries together with the
fields the code reads, each field being what `extractValue` receives. -/

/-- A candidate handed to `extractValue`: nothing usable, a string, or an
object that may have a string under `value`. -/
inductive Field where
  | absent
  | text (s : String)
  | boxed (value : Option String)
  deriving DecidableEq, Repr

/-- The function `extractValue(candidate, fallback)`. -/
def extractValue (candidate : Field) (fallback : Option String) : Option String :=
  match candidate with
  | .absent => fallback
  | .text s => if s ≠ "" then some s else fallback
  | .boxed (some v) => if v ≠ "" then some v else fallback
  | .boxed none => fallback

/-- The white space and line terminators that `String.prototype.trim` strips. -/
def isTrimmable (c : Char) : Bool :=
  let n := c.toNat
  decide (n = 0x09 ∨ n = 0x0A ∨ n = 0x0B ∨ n = 0x0C ∨ n = 0x0D ∨ n = 0x20 ∨ n = 0xA0 ∨
    n = 0x1680 ∨ (0x2000 ≤ n ∧ n ≤ 0x200A) ∨ n = 0x2028 ∨ n = 0x2029 ∨ n = 0x202F ∨
    n = 0x205F ∨ n = 0x3000 ∨ n = 0xFEFF)

/-- The method `String.prototype.trim`, on the list of characters. -/
def trimSpaces (cs : List Char) : List Char :=
  ((cs.dropWhile isTrimmable).reverse.dropWhile isTrimmable).reverse

/-- The character class `\d`. -/
def isDecimalDigit (c : Char) : Bool := decide (48 ≤ c.toNat) && decide (c.toNat ≤ 57)

/-- The function `normaliseYear(value)` on an optional string. -/
def normaliseYear (value : Option String) : Option Int :=
  match value with
  | none => none
  | some s =>
    if s = "" then none
    else
      let str := trimSpaces s.data
      if str.length = 4 ∧ str.all isDecimalDigit = true then
        some (str.foldl (fun acc c => 10 * acc + ((c.toNat - 48 : Nat) : Int)) 0)
      else none

/-- The fields of a `peer-review-summary` that `normaliseSummary` reads. -/
structure Summary where
  /-- The value at `completion-date.year.value`. -/
  completionYear : Option String := none
  /-- The value at `completion-date.value`. -/
  completionDate : Option String := none
  subjectContainerName : Field := .absent
  subjectName : Field := .absent
  reviewGroupType : Field := .absent
  /-- The number at `put-code`. -/
  putCode : Option Nat := none
  /-- The value at `reviewer-org.name`. -/
  reviewerOrgName : Field := .absent
  /-- The value at `organization.name`. -/
  organizationName : Field := .absent
  /-- The value at `reviewer-role.value`. -/
  reviewerRole : Field := .absent
  /-- The value at `review-type.value`. -/
  reviewType : Field := .absent
  /-- The value at `url.value`. -/
  url : Field := .absent
  /-- The value at `subject-url.value`. -/
  subjectUrl : Field := .absent
  groupId : Field := .absent
  /-- The `external-identifier-value` of each external identifier. -/
  externalIdentifiers : List Field := []
  deriving DecidableEq, Repr

/-- The fields of a `peer-review-group` that the code reads. -/
structure Group where
  summaries : List Summary := []
  groupId : Field := .absent
  /-- The value at `reviewer-org.name`. -/
  reviewerOrgName : Field := .absent
  /-- The value at `organization.name`. -/
  organizationName : Field := .absent
  deriving DecidableEq, Repr

/-- The function `collectSummaries(payload)`. -/
def collectSummaries (payload : List Group) : List (Summary × Group) :=
  payload.flatMap (fun group => group.summaries.map (fun summary => (summary, group)))

/-- The expression `a || b` for two optional non-empty strings. -/
def firstPresent (a b : Option String) : Option String :=
  (strOrNull a).orElse (fun _ => strOrNull b)

/-- The function `normaliseSummary(record)`. -/
def normaliseSummary (P : Platform) (record : Summary × Group) : Entry :=
  let summary := record.1
  let group := record.2
  let completionYear := normaliseYear (firstPresent summary.completionYear summary.completionDate)
  let containerName := extractValue summary.subjectContainerName none
  let subjectName := extractValue summary.subjectName none
  let reviewGroupType := extractValue summary.reviewGroupType none
  let name := strOr containerName (strOr subjectName (strOr reviewGroupType "Peer review"))
  let putId : String := match summary.putCode with
    | some n => if n ≠ 0 then "put-" ++ toString n else ""
    | none => ""
  let id := orElseStr (slugify P name) (orElseStr putId
    (orElseStr (slugify P (strOr reviewGroupType "")) (orElseStr (slugify P (strOr subjectName ""))
      (orElseStr (slugify P (strOr containerName "")) "peer-review"))))
  let reviewerOrg := extractValue summary.reviewerOrgName (extractValue group.reviewerOrgName none)
  let organization := firstPresent reviewerOrg
    (firstPresent (extractValue group.organizationName none)
      (extractValue summary.organizationName none))
  let role := extractValue summary.reviewerRole (extractValue summary.reviewType none)
  let url := extractValue summary.url (extractValue summary.subjectUrl none)
  let groupId := extractValue group.groupId (extractValue summary.groupId none)
  let aliasValues := (summary.externalIdentifiers.filterMap
    (fun identifier => extractValue identifier none)).filter (fun s => decide (s ≠ ""))
  { id := id
    name := name
    organization := strOr organization ""
    role := strOr role ""
    years := match numOrNull completionYear with
      | some y => [y]
      | none => []
    lastReviewed := numOrNull completionYear
    url := strOrNull url
    source := "orcid"
    groupIds := match strOrNull groupId with
      | some g => [g]
      | none => []
    aliases := aliasValues
    putCodes := match summary.putCode with
      | some n => if n ≠ 0 then [toString n] else []
      | none => [] }

/-- The property `length` of a string: its number of UTF-16 code units. -/
def utf16Length (s : String) : Nat :=
  s.data.foldl (fun n c => n + (if c.toNat < 0x10000 then 1 else 2)) 0

/-- The update of `existing` by a further `entry` with the same key in
`aggregatePeerReviews`. -/
def mergeSummary (existing entry : Entry) : Entry :=
  let combinedYears := sortBy (fun a b => b - a) (arrayFromSet (existing.years ++ entry.years))
  let name1 := if existing.name = "" ∧ entry.name ≠ "" then entry.name else existing.name
  let name2 := if entry.name ≠ "" ∧ utf16Length entry.name > utf16Length name1 then entry.name
    else name1
  { id := existing.id
    name := name2
    organization :=
      if entry.organization ≠ "" ∧ (existing.organization = "" ∨
          utf16Length entry.organization > utf16Length existing.organization) then
        entry.organization
      else existing.organization
    role := if entry.role ≠ "" ∧ existing.role = "" then entry.role else existing.role
    years := combinedYears
    lastReviewed := (numOrNull combinedYears.head?).orElse (fun _ =>
      (numOrNull existing.lastReviewed).orElse (fun _ => numOrNull entry.lastReviewed))
    url := if strOrNull entry.url ≠ none ∧ strOrNull existing.url = none then entry.url
      else existing.url
    source := existing.source
    groupIds := arrayFromSet
      ((existing.groupIds ++ entry.groupIds).filter (fun s => decide (s ≠ "")))
    aliases := arrayFromSet (existing.aliases ++ entry.aliases)
    putCodes := arrayFromSet
      ((existing.putCodes ++ entry.putCodes).filter (fun s => decide (s ≠ ""))) }

/-- One iteration of the loop of `aggregatePeerReviews` over the records. -/
def aggregateStep (P : Platform) (aggregated : List (String × Entry))
    (record : Summary × Group) : List (String × Entry) :=
  let entry := normaliseSummary P record
  let key := strOr entry.groupIds.head? entry.id
  match mapGet aggregated key with
  | none => mapSet aggregated key entry
  | some existing => mapSet aggregated key (mergeSummary existing entry)

/-- The callback of the `.map(...)` at the end of `aggregatePeerReviews`. -/
def finishAggregate (item : Entry) : Entry :=
  let years := sortBy (fun a b => b - a) item.years
  { item with
    years := years
    lastReviewed := (numOrNull years.head?).orElse (fun _ => numOrNull item.lastReviewed) }

/-- The function `aggregatePeerReviews(payload)`. -/
def aggregatePeerReviews (P : Platform) (payload : List Group) : List Entry :=
  let aggregated := (collectSummaries payload).foldl (aggregateStep P) []
  sortBy (compareEntries P) ((mapValues aggregated).map finishAggregate)

/-- The `entries` of the feed as the client receives them: each entry as a JSON
object. -/
def feedItems (P : Platform) (payload : List Group) : List RawItem :=
  (aggregatePeerReviews P payload).map (fun entry => RawItem.obj entry.toRaw)

/-! ## Vocabulary of the specification -/

/-- The fallback criterion of the matcher in the words of the specification:
both names non-empty and equal up to case, or a shared group id, or a shared
alias. -/
def FallbackMatch (P : Platform) (r c : Entry) : Prop :=
  (r.name ≠ "" ∧ c.name ≠ "" ∧ P.toLowerCase r.name = P.toLowerCase c.name) ∨
  (∃ g, g ∈ r.groupIds ∧ g ∈ c.groupIds) ∨
  (∃ a, a ∈ r.aliases ∧ a ∈ c.aliases)

instance (P : Platform) (r c : Entry) : Decidable (FallbackMatch P r c) := by
  unfold FallbackMatch
  exact inferInstance

/-- The shape every entry handled by `mergeEntries` has: years strictly
descending, `lastReviewed` never `0` and absent only when the first year is
absent or `0`, `url` never the empty string. -/
def Canonical (e : Entry) : Prop :=
  e.years.Pairwise (fun a b => b < a) ∧
  e.lastReviewed ≠ some 0 ∧
  (e.lastReviewed = none → numOrNull e.years.head? = none) ∧
  e.url ≠ some ""

/-- What one iteration of the loop over the remote entries pushes onto
`merged`, if anything. -/
def emitEntry (P : Platform) (manualIndex : List (String × Entry)) (remote : RawItem) :
    Option Entry :=
  match parseEntry P remote "remote" with
  | none => none
  | some parsedRemote =>
    match findMatchingManual P parsedRemote manualIndex with
    | some manualMatch => some (mergePair P manualMatch parsedRemote)
    | none => some parsedRemote

/-- A remote item that the loop matches to the manual entry `manualMatch`,
its parsed form being `parsedRemote`. -/
def MatchedBy (P : Platform) (manualIndex : List (String × Entry)) (remote : RawItem)
    (parsedRemote manualMatch : Entry) : Prop :=
  parseEntry P remote "remote" = some parsedRemote ∧
  findMatchingManual P parsedRemote manualIndex = some manualMatch

instance (P : Platform) (manualIndex : List (String × Entry)) (remote : RawItem)
    (parsedRemote manualMatch : Entry) :
    Decidable (MatchedBy P manualIndex remote parsedRemote manualMatch) := by
  unfold MatchedBy
  exact inferInstance

/-- The contents of the array `merged` when the three loops are over: what
the remote entries pushed, then the manual entries that were not consumed. -/
def mergedBeforeSort (P : Platform) (manualEntries remoteEntries : List RawItem) : List Entry :=
  remoteEntries.filterMap (emitEntry P (buildManualIndex P manualEntries)) ++
    leftoverManual (buildManualIndex P manualEntries)
      (processRemote P (buildManualIndex P manualEntries) remoteEntries).consumedManual

/-- An input item that is an object (`typeof item === 'object'` and not
`null`). -/
def isObject : RawItem → Bool
  | .obj _ => true
  | .other _ => false

/-- The name criterion of the matcher: both names non-empty and equal up to
case. -/
def NameMatch (P : Platform) (r c : Entry) : Prop :=
  r.name ≠ "" ∧ c.name ≠ "" ∧ P.toLowerCase r.name = P.toLowerCase c.name

/-- The group criterion of the matcher: a shared group id. -/
def GroupMatch (r c : Entry) : Prop := ∃ g, g ∈ r.groupIds ∧ g ∈ c.groupIds

/-- The alias criterion of the matcher: a shared alias. -/
def AliasMatch (r c : Entry) : Prop := ∃ a, a ∈ r.aliases ∧ a ∈ c.aliases

instance (P : Platform) (r c : Entry) : Decidable (NameMatch P r c) := by
  unfold NameMatch
  exact inferInstance

instance (r c : Entry) : Decidable (GroupMatch r c) := by
  unfold GroupMatch
  exact inferInstance

instance (r c : Entry) : Decidable (AliasMatch r c) := by
  unfold AliasMatch
  exact inferInstance

/-- The text `slugify` has built just before the final `.slice(0, 120)`. -/
def slugBeforeCut (P : Platform) (text : String) : List Char :=
  trimHyphens (replaceRuns false
    (P.toLowerCase (String.mk ((P.normalizeNFKD text).data.filter
      (fun c => !isCombiningMark c)))).data)

/-- A text without two hyphens in a row. -/
def noDoubleHyphen : List Char → Bool
  | a :: b :: rest => !(a == '-' && b == '-') && noDoubleHyphen (b :: rest)
  | _ => true

/-- A character a slug may hold: `a`-`z`, `0`-`9` or the hyphen. -/
def isSlugOrHyphen (c : Char) : Bool := isSlugChar c || c == '-'

/-! ## A platform for ASCII text -/

/-- The conversion `Number(s)` on the strings the samples use: the value of a
string of decimal digits, `0` for the empty string; every other string is
mapped to `NaN`. -/
def asciiStringToNumber (s : String) : JSNum :=
  if s.data.all Char.isDigit then
    JSNum.fin (s.data.foldl (fun acc c => 10 * acc + ((c.toNat - 48 : Nat) : Int)) 0)
  else JSNum.nan

/-- Lexicographic comparison of two character lists by code point. -/
def compareChars : List Char → List Char → Int
  | [], [] => 0
  | [], _ :: _ => -1
  | _ :: _, [] => 1
  | a :: as, b :: bs =>
    if a.toNat < b.toNat then -1
    else if b.toNat < a.toNat then 1
    else compareChars as bs

/-- The built-ins restricted to ASCII text: normalisation changes nothing,
lower-casing maps `A`-`Z` to `a`-`z`, comparison is by code point. -/
def asciiPlatform : Platform :=
  { stringToNumber := asciiStringToNumber
    normalizeNFKD := fun s => s
    toLowerCase := fun s => String.mk (s.data.map Char.toLower)
    localeCompare := fun a b => compareChars a.data b.data }

/-! ## Sample data -/

/-- The manual entry of the union-merge example: years `[2021]`. -/
def sampleManual : RawItem :=
  .obj { id := some "a", name := some "Nature", years := yearsAsValues [2021] }

/-- The remote entry of the union-merge example: years `[2023]`. -/
def sampleRemote : RawItem :=
  .obj { id := some "a", name := some "Nature", years := yearsAsValues [2023] }

/-- The normal form of `sampleManual`. -/
def sampleManualParsed : Entry :=
  { id := "a", name := "Nature", organization := "", role := "", years := [2021],
    lastReviewed := some 2021, url := none, source := "manual",
    groupIds := [], aliases := [], putCodes := [] }

/-- The normal form of `sampleRemote`. -/
def sampleRemoteParsed : Entry :=
  { id := "a", name := "Nature", organization := "", role := "", years := [2023],
    lastReviewed := some 2023, url := none, source := "remote",
    groupIds := [], aliases := [], putCodes := [] }

/-- A remote entry that arrives already tagged `merged`. -/
def flaggedRemote : RawItem :=
  .obj { id := some "a", source := some "merged" }

/-- The normal form of `flaggedRemote`. -/
def flaggedRemoteParsed : Entry :=
  { id := "a", name := "", organization := "", role := "", years := [],
    lastReviewed := none, url := none, source := "merged",
    groupIds := [], aliases := [], putCodes := [] }

/-- A manual entry without any year. -/
def undatedManual : RawItem :=
  .obj { name := some "Annals", organization := some "Society" }

/-- A remote entry with the same first year as the merged sample pair. -/
def datedRemote : RawItem :=
  .obj { name := some "Cell", years := yearsAsValues [2023, 2019] }

/-- A manual entry whose explicit `lastReviewed` is older than its year. -/
def explicitManual : RawItem :=
  .obj { name := some "Nature", years := yearsAsValues [2020], lastReviewed := some 2018 }

/-- A manual entry with a year newer than the year of `olderRemote`. -/
def newerManual : RawItem :=
  .obj { id := some "a", name := some "Nature", years := yearsAsValues [2023] }

/-- A remote entry with the same id as `newerManual` and an older year. -/
def olderRemote : RawItem :=
  .obj { id := some "a", name := some "Nature", years := yearsAsValues [2021] }

/-- A raw entry whose first group id is empty and whose second is not. -/
def emptyFirstGroup : RawEntry :=
  { groupIds := some ["", "g"] }

/-- A raw entry whose name holds no letter and no digit. -/
def punctuationOnly : RawEntry :=
  { name := some "!!!" }

/-- A raw entry with a name, an organization and group ids. -/
def namedEntry : RawEntry :=
  { name := some "Journal of Tests", organization := some "ACME",
    years := some [.str "2020", .num (.fin 2022), .null],
    groupIds := some ["issn:1", "", "issn:1"] }

/-- A manual entry that a later entry with the same id overwrites. -/
def overwrittenManual : RawEntry :=
  { id := some "a", name := some "First" }

/-- The manual entry that overwrites `overwrittenManual`. -/
def overwritingManual : RawEntry :=
  { id := some "a", name := some "Second" }

/-- The normal form of `overwrittenManual`. -/
def overwrittenParsed : Entry :=
  { id := "a", name := "First", organization := "", role := "", years := [],
    lastReviewed := none, url := none, source := "manual",
    groupIds := [], aliases := [], putCodes := [] }

/-- A manual entry that no sample remote entry matches. -/
def loneManual : RawEntry :=
  { name := some "Annals", organization := some "Society", years := yearsAsValues [2018] }

/-- The normal form of `loneManual`. -/
def loneManualParsed : Entry :=
  { id := "annals", name := "Annals", organization := "Society", role := "", years := [2018],
    lastReviewed := some 2018, url := none, source := "manual",
    groupIds := [], aliases := [], putCodes := [] }

/-- A remote entry with an id and nothing else; it is used twice. -/
def repeatedRemote : RawItem :=
  .obj { id := some "a" }

/-- A manual entry that two remote entries match by name. -/
def sharedManual : RawItem :=
  .obj { id := some "m", name := some "Nature" }

/-- The normal form of `sharedManual`. -/
def sharedManualParsed : Entry :=
  { id := "m", name := "Nature", organization := "", role := "", years := [],
    lastReviewed := none, url := none, source := "manual",
    groupIds := [], aliases := [], putCodes := [] }

/-- A first remote entry with the name of `sharedManual`. -/
def firstNamesake : RawItem :=
  .obj { id := some "r1", name := some "Nature" }

/-- The normal form of `firstNamesake`. -/
def firstNamesakeParsed : Entry :=
  { id := "r1", name := "Nature", organization := "", role := "", years := [],
    lastReviewed := none, url := none, source := "remote",
    groupIds := [], aliases := [], putCodes := [] }

/-- A second remote entry with the name of `sharedManual`, in lower case. -/
def secondNamesake : RawItem :=
  .obj { id := some "r2", name := some "nature" }

/-- The normal form of `secondNamesake`. -/
def secondNamesakeParsed : Entry :=
  { id := "r2", name := "nature", organization := "", role := "", years := [],
    lastReviewed := none, url := none, source := "remote",
    groupIds := [], aliases := [], putCodes := [] }


/-- A remote entry with a name, a group id and an alias, under an id that the
sample indexes do not hold. -/
def probeRemote : Entry :=
  { id := "probe", name := "Nature", organization := "", role := "", years := [],
    lastReviewed := none, url := none, source := "remote",
    groupIds := ["issn:0028-0836"], aliases := ["doi:10.1038"], putCodes := [] }

/-- A manual entry that shares only the name of `probeRemote`, up to case. -/
def nameOnlyCandidate : Entry :=
  { id := "n", name := "NATURE", organization := "", role := "", years := [],
    lastReviewed := none, url := none, source := "manual",
    groupIds := [], aliases := [], putCodes := [] }

/-- A manual entry that shares only the group id of `probeRemote`. -/
def groupOnlyCandidate : Entry :=
  { id := "g", name := "Science", organization := "", role := "", years := [],
    lastReviewed := none, url := none, source := "manual",
    groupIds := ["issn:0028-0836"], aliases := [], putCodes := [] }

/-- A manual entry that shares only the alias of `probeRemote`. -/
def aliasOnlyCandidate : Entry :=
  { id := "al", name := "Cell", organization := "", role := "", years := [],
    lastReviewed := none, url := none, source := "manual",
    groupIds := [], aliases := ["doi:10.1038"], putCodes := [] }

/-- A manual entry that shares nothing with `probeRemote`. -/
def unrelatedCandidate : Entry :=
  { id := "u", name := "Annals", organization := "", role := "", years := [],
    lastReviewed := none, url := none, source := "manual",
    groupIds := ["issn:0003-486X"], aliases := [], putCodes := [] }

/-- A title whose slug is 121 characters long before the cut: 119 letters, a
hyphen and one more letter. -/
def longTitle : String :=
  String.mk (List.replicate 119 'a' ++ ['-', 'b'])

/-- A registry payload: one group with two reviews for the same journal. -/
def samplePayload : List Group :=
  [{ groupId := .text "issn:0028-0836"
     summaries :=
       [{ completionYear := some "2022", subjectContainerName := .boxed (some "Nature"),
          putCode := some 101 },
        { completionYear := some " 2020 ", subjectContainerName := .boxed (some "Nature"),
          reviewerOrgName := .text "Springer", putCode := some 102 }] }]

/-- A manual entry that carries a source tag of its own. -/
def taggedManual : RawItem :=
  .obj { name := some "Annals", source := some "archive" }

/-! ## Lemmas on sets and sorting -/

theorem mem_foldl_setAdd {α : Type} [DecidableEq α] (xs : List α) :
    ∀ (acc : List α) (x : α), x ∈ xs.foldl setAdd acc ↔ x ∈ acc ∨ x ∈ xs := by
  induction xs with
  | nil => intro acc x; simp
  | cons y ys ih =>
    intro acc x
    simp only [List.foldl_cons, ih, List.mem_cons]
    unfold setAdd
    by_cases hy : y ∈ acc
    · simp only [hy, if_true]
      constructor
      · rintro (h | h)
        · exact Or.inl h
        · exact Or.inr (Or.inr h)
      · rintro (h | h | h)
        · exact Or.inl h
        · exact Or.inl (h ▸ hy)
        · exact Or.inr h
    · simp only [hy, if_false, List.mem_append, List.mem_singleton]
      tauto

theorem nodup_foldl_setAdd {α : Type} [DecidableEq α] (xs : List α) :
    ∀ acc : List α, acc.Nodup → (xs.foldl setAdd acc).Nodup := by
  induction xs with
  | nil => intro acc h; simpa using h
  | cons y ys ih =>
    intro acc h
    simp only [List.foldl_cons]
    apply ih
    unfold setAdd
    by_cases hy : y ∈ acc
    · simpa [hy] using h
    · simp only [hy, if_false]
      exact List.Nodup.append h (List.nodup_singleton y) (by simpa using hy)

theorem mem_arrayFromSet {α : Type} [DecidableEq α] (xs : List α) (x : α) :
    x ∈ arrayFromSet xs ↔ x ∈ xs := by
  simp [arrayFromSet, mem_foldl_setAdd]

theorem nodup_arrayFromSet {α : Type} [DecidableEq α] (xs : List α) :
    (arrayFromSet xs).Nodup :=
  nodup_foldl_setAdd xs [] List.nodup_nil

theorem foldl_setAdd_of_nodup {α : Type} [DecidableEq α] (xs : List α) :
    ∀ acc : List α, (acc ++ xs).Nodup → xs.foldl setAdd acc = acc ++ xs := by
  induction xs with
  | nil => intro acc _; simp
  | cons y ys ih =>
    intro acc h
    have hy : y ∉ acc := by
      intro hmem
      have := List.nodup_append.mp h
      exact this.2.2 hmem (List.mem_cons_self y ys)
    simp only [List.foldl_cons, setAdd, hy, if_false]
    rw [ih (acc ++ [y]) (by simpa using h)]
    simp

theorem arrayFromSet_of_nodup {α : Type} [DecidableEq α] (xs : List α) (h : xs.Nodup) :
    arrayFromSet xs = xs := by
  simpa [arrayFromSet] using foldl_setAdd_of_nodup xs [] (by simpa using h)

theorem sortBy_perm {α : Type} (cmp : α → α → Int) (xs : List α) :
    (sortBy cmp xs).Perm xs :=
  List.perm_insertionSort _ xs

theorem mem_sortBy {α : Type} (cmp : α → α → Int) (xs : List α) (x : α) :
    x ∈ sortBy cmp xs ↔ x ∈ xs :=
  (sortBy_perm cmp xs).mem_iff

theorem sortBy_sorted {α : Type} (cmp : α → α → Int)
    (htotal : ∀ a b, cmp a b ≤ 0 ∨ cmp b a ≤ 0)
    (htrans : ∀ a b c, cmp a b ≤ 0 → cmp b c ≤ 0 → cmp a c ≤ 0) (xs : List α) :
    (sortBy cmp xs).Pairwise (fun a b => cmp a b ≤ 0) := by
  haveI : IsTotal α (fun a b => cmp a b ≤ 0) := ⟨htotal⟩
  haveI : IsTrans α (fun a b => cmp a b ≤ 0) := ⟨htrans⟩
  exact List.sorted_insertionSort _ xs

theorem sortBy_of_sorted {α : Type} (cmp : α → α → Int) (xs : List α)
    (h : xs.Pairwise (fun a b => cmp a b ≤ 0)) : sortBy cmp xs = xs :=
  List.Sorted.insertionSort_eq h

/-! ## Lemmas on uniqueSortedYears -/

theorem mem_uniqueSortedYears (P : Platform) (xs : List JSVal) (n : Int) :
    n ∈ uniqueSortedYears P (some xs) ↔ ∃ v ∈ xs, toNumber P v = JSNum.fin n := by
  simp only [uniqueSortedYears, mem_sortBy, mem_arrayFromSet, List.mem_filterMap]
  constructor
  · rintro ⟨v, hv, h⟩
    refine ⟨v, hv, ?_⟩
    cases hnum : toNumber P v <;> simp [hnum, finiteOrNull] at h
    rw [h]
  · rintro ⟨v, hv, h⟩
    exact ⟨v, hv, by simp [h, finiteOrNull]⟩

theorem nodup_uniqueSortedYears (P : Platform) (years : Option (List JSVal)) :
    (uniqueSortedYears P years).Nodup := by
  unfold uniqueSortedYears
  exact (sortBy_perm _ _).nodup_iff.mpr (nodup_arrayFromSet _)

theorem descending_uniqueSortedYears (P : Platform) (years : Option (List JSVal)) :
    (uniqueSortedYears P years).Pairwise (fun a b => b < a) := by
  have hs : (uniqueSortedYears P years).Pairwise (fun a b : Int => b - a ≤ 0) := by
    unfold uniqueSortedYears
    exact sortBy_sorted (fun a b : Int => b - a) (fun a b => by show b - a ≤ 0 ∨ a - b ≤ 0; omega)
      (fun a b c h1 h2 => by
        have h1 : b - a ≤ 0 := h1
        have h2 : c - b ≤ 0 := h2
        show c - a ≤ 0
        omega) _
  have hn := nodup_uniqueSortedYears P years
  rw [List.Nodup] at hn
  refine (hs.and hn).imp ?_
  intro a b h
  have h1 := h.1
  have h2 := h.2
  omega

/-- C1: `uniqueSortedYears` returns exactly the finite values `Number(v)` of
the members `v` of its input, each of them once, in strictly descending
order. -/
theorem uniqueSortedYears_spec (P : Platform) (xs : List JSVal) :
    (∀ n : Int, n ∈ uniqueSortedYears P (some xs) ↔ ∃ v ∈ xs, toNumber P v = JSNum.fin n) ∧
    (∀ n : Int, (∃ v ∈ xs, toNumber P v = JSNum.fin n) →
      (uniqueSortedYears P (some xs)).count n = 1) ∧
    (uniqueSortedYears P (some xs)).Pairwise (fun a b => b < a) := by
  refine ⟨mem_uniqueSortedYears P xs, ?_, descending_uniqueSortedYears P (some xs)⟩
  intro n hn
  exact List.count_eq_one_of_mem (nodup_uniqueSortedYears P (some xs))
    ((mem_uniqueSortedYears P xs n).mpr hn)


/-! ## Lemmas on the matcher -/

theorem mapHas_iff_mapGet {β : Type} (m : List (String × β)) (k : String) :
    mapHas m k = true ↔ ∃ e, mapGet m k = some e := by
  induction m with
  | nil => simp [mapHas, mapGet]
  | cons p rest ih =>
    unfold mapGet
    by_cases h : p.1 = k
    · simp [mapHas, h]
    · have ih2 : mapHas rest k = true ↔ ∃ e, mapGet rest k = some e := ih
      simp only [h, if_false, ← ih2]
      simp [mapHas, h]

theorem sharesElement_iff (xs ys : List String) :
    sharesElement xs ys = true ↔ ∃ x, x ∈ xs ∧ x ∈ ys := by
  simp [sharesElement, List.any_eq_true]

theorem scanCandidates_step (P : Platform) (r c : Entry) (rest : List Entry) :
    scanCandidates P r (c :: rest) =
      if FallbackMatch P r c then some c else scanCandidates P r rest := by
  unfold FallbackMatch
  rw [scanCandidates]
  by_cases h1 : r.name ≠ "" ∧ c.name ≠ "" ∧ P.toLowerCase r.name = P.toLowerCase c.name
  · rw [if_pos h1, if_pos (Or.inl h1)]
  · rw [if_neg h1]
    by_cases h2 : sharesElement r.groupIds c.groupIds = true
    · rw [if_pos h2, if_pos (Or.inr (Or.inl ((sharesElement_iff _ _).mp h2)))]
    · rw [if_neg h2]
      by_cases h3 : sharesElement r.aliases c.aliases = true
      · rw [if_pos h3, if_pos (Or.inr (Or.inr ((sharesElement_iff _ _).mp h3)))]
      · rw [if_neg h3, if_neg]
        rintro (h | h | h)
        · exact h1 h
        · exact h2 ((sharesElement_iff _ _).mpr h)
        · exact h3 ((sharesElement_iff _ _).mpr h)

theorem scanCandidates_eq_some_iff (P : Platform) (r c : Entry) (cs : List Entry) :
    scanCandidates P r cs = some c ↔
      ∃ pre post, cs = pre ++ c :: post ∧ FallbackMatch P r c ∧
        ∀ x ∈ pre, ¬ FallbackMatch P r x := by
  induction cs with
  | nil => simp [scanCandidates]
  | cons d rest ih =>
    rw [scanCandidates_step]
    by_cases hd : FallbackMatch P r d
    · rw [if_pos hd]
      constructor
      · intro h
        have hdc : d = c := by simpa using h
        subst hdc
        exact ⟨[], rest, rfl, hd, by simp⟩
      · rintro ⟨pre, post, hsplit, _, hpre⟩
        cases pre with
        | nil =>
          simp only [List.nil_append, List.cons.injEq] at hsplit
          rw [hsplit.1]
        | cons e pre2 =>
          simp only [List.cons_append, List.cons.injEq] at hsplit
          exact absurd (hsplit.1 ▸ hd) (hpre e (List.mem_cons_self _ _))
    · rw [if_neg hd, ih]
      constructor
      · rintro ⟨pre, post, hsplit, hc, hpre⟩
        refine ⟨d :: pre, post, by simp [hsplit], hc, ?_⟩
        intro x hx
        rcases List.mem_cons.mp hx with h | h
        · exact h ▸ hd
        · exact hpre x h
      · rintro ⟨pre, post, hsplit, hc, hpre⟩
        cases pre with
        | nil =>
          simp only [List.nil_append, List.cons.injEq] at hsplit
          exact absurd (hsplit.1 ▸ hc) hd
        | cons e pre2 =>
          simp only [List.cons_append, List.cons.injEq] at hsplit
          exact ⟨pre2, post, hsplit.2, hc, fun x hx => hpre x (List.mem_cons_of_mem _ hx)⟩

theorem scanCandidates_eq_none_iff (P : Platform) (r : Entry) (cs : List Entry) :
    scanCandidates P r cs = none ↔ ∀ c ∈ cs, ¬ FallbackMatch P r c := by
  induction cs with
  | nil => simp [scanCandidates]
  | cons d rest ih =>
    rw [scanCandidates_step]
    by_cases hd : FallbackMatch P r d
    · simp [hd]
    · simp [hd, ih]

/-- C2: `findMatchingManual` returns the entry stored under the remote id when
the index has that key; otherwise the first entry, in insertion order, that
meets the fallback criterion (names equal up to case and non-empty, or a shared
group id, or a shared alias); and it returns nothing exactly when the index has
neither the key nor such an entry. -/
theorem findMatchingManual_spec (P : Platform) (r : Entry) (idx : List (String × Entry)) :
    (mapHas idx r.id = true →
      ∃ e, mapGet idx r.id = some e ∧ findMatchingManual P r idx = some e) ∧
    (mapHas idx r.id = false → ∀ c, findMatchingManual P r idx = some c ↔
      ∃ pre post, mapValues idx = pre ++ c :: post ∧ FallbackMatch P r c ∧
        ∀ x ∈ pre, ¬ FallbackMatch P r x) ∧
    (findMatchingManual P r idx = none ↔
      mapHas idx r.id = false ∧ ∀ c ∈ mapValues idx, ¬ FallbackMatch P r c) := by
  refine ⟨?_, ?_, ?_⟩
  · intro h
    obtain ⟨e, he⟩ := (mapHas_iff_mapGet idx r.id).mp h
    exact ⟨e, he, by simp [findMatchingManual, h, he]⟩
  · intro h c
    simp only [findMatchingManual, h, Bool.false_eq_true, if_false]
    exact scanCandidates_eq_some_iff P r c (mapValues idx)
  · by_cases h : mapHas idx r.id = true
    · obtain ⟨e, he⟩ := (mapHas_iff_mapGet idx r.id).mp h
      simp [findMatchingManual, h, he]
    · have h2 : mapHas idx r.id = false := by simpa using h
      simp only [findMatchingManual, h2, Bool.false_eq_true, if_false, true_and]
      exact scanCandidates_eq_none_iff P r (mapValues idx)


/-! ## Canonical entries -/

theorem filterMap_yearsAsValues (P : Platform) (years : List Int) :
    (years.map (fun n => JSVal.num (JSNum.fin n))).filterMap
      (fun value => finiteOrNull (toNumber P value)) = years := by
  induction years with
  | nil => rfl
  | cons y ys ih =>
    rw [List.map_cons, List.filterMap_cons]
    have hy : finiteOrNull (toNumber P (JSVal.num (JSNum.fin y))) = some y := rfl
    rw [hy, ih]

theorem mem_uniqueSortedYears_values (P : Platform) (years : List Int) (n : Int) :
    n ∈ uniqueSortedYears P (yearsAsValues years) ↔ n ∈ years := by
  simp only [uniqueSortedYears, yearsAsValues, mem_sortBy, mem_arrayFromSet,
    filterMap_yearsAsValues]

theorem uniqueSortedYears_of_descending (P : Platform) (years : List Int)
    (h : years.Pairwise (fun a b => b < a)) :
    uniqueSortedYears P (yearsAsValues years) = years := by
  have hn : years.Nodup := h.imp (fun hab => by omega)
  simp only [uniqueSortedYears, yearsAsValues, filterMap_yearsAsValues,
    arrayFromSet_of_nodup years hn]
  apply sortBy_of_sorted
  exact h.imp (fun hab => by omega)

theorem numOrNull_ne_zero (x : Option Int) : numOrNull x ≠ some 0 := by
  cases x with
  | none => simp [numOrNull]
  | some n =>
    by_cases h : n = 0
    · simp [numOrNull, h]
    · simp [numOrNull, h]

theorem numOrNull_idem (x : Option Int) : numOrNull (numOrNull x) = numOrNull x := by
  cases x with
  | none => rfl
  | some n =>
    by_cases h : n = 0
    · simp [numOrNull, h]
    · simp [numOrNull, h]

theorem numOrNull_of_ne_zero {x : Option Int} (h : x ≠ some 0) : numOrNull x = x := by
  cases x with
  | none => rfl
  | some n =>
    have : n ≠ 0 := fun h0 => h (by rw [h0])
    simp [numOrNull, this]

theorem strOrNull_ne_empty (x : Option String) : strOrNull x ≠ some "" := by
  cases x with
  | none => simp [strOrNull]
  | some s =>
    by_cases h : s = ""
    · simp [strOrNull, h]
    · simp [strOrNull, h]

theorem strOrNull_of_ne_empty {x : Option String} (h : x ≠ some "") : strOrNull x = x := by
  cases x with
  | none => rfl
  | some s =>
    have : s ≠ "" := fun h0 => h (by rw [h0])
    simp [strOrNull, this]

theorem canonical_lastReviewed_orElse (a : Option Int) (b : Option Int) :
    (numOrNull a).orElse (fun _ => numOrNull b) ≠ some 0 := by
  cases h : numOrNull a with
  | none => simpa using numOrNull_ne_zero b
  | some n =>
    have := numOrNull_ne_zero a
    rw [h] at this
    simpa using this

theorem parseEntry_canonical (P : Platform) (item : RawItem) (d : String) (e : Entry)
    (h : parseEntry P item d = some e) : Canonical e := by
  cases item with
  | other v => simp [parseEntry] at h
  | obj raw =>
    simp only [parseEntry] at h
    have key : ∀ i : String, Canonical
        { id := i
          name := strOr raw.name ""
          organization := strOr raw.organization ""
          role := strOr raw.role (strOr raw.reviewRole "")
          years := uniqueSortedYears P raw.years
          lastReviewed := (numOrNull raw.lastReviewed).orElse
            (fun _ => numOrNull (uniqueSortedYears P raw.years).head?)
          url := strOrNull raw.url
          source := strOr raw.source d
          groupIds := cleanStrings raw.groupIds
          aliases := cleanStrings raw.aliases
          putCodes := cleanStrings raw.putCodes } := by
      intro i
      refine ⟨descending_uniqueSortedYears P raw.years, canonical_lastReviewed_orElse _ _, ?_,
        strOrNull_ne_empty _⟩
      intro hnone
      cases h1 : numOrNull raw.lastReviewed with
      | none => simpa [h1] using hnone
      | some n => simp [h1] at hnone
    split at h
    · cases h; exact key _
    · cases h; exact key _


/-! ## Lemmas on the index -/

theorem mem_mapSet {β : Type} (m : List (String × β)) (k : String) (v : β) (p : String × β)
    (h : p ∈ mapSet m k v) : p = (k, v) ∨ p ∈ m := by
  induction m with
  | nil => simpa [mapSet] using h
  | cons q rest ih =>
    unfold mapSet at h
    by_cases hq : q.1 = k
    · rw [if_pos hq] at h
      rcases List.mem_cons.mp h with h | h
      · exact Or.inl h
      · exact Or.inr (List.mem_cons_of_mem _ h)
    · rw [if_neg hq] at h
      rcases List.mem_cons.mp h with h | h
      · exact Or.inr (h ▸ List.mem_cons_self _ _)
      · rcases ih h with h | h
        · exact Or.inl h
        · exact Or.inr (List.mem_cons_of_mem _ h)

theorem keys_mapSet {β : Type} (m : List (String × β)) (k : String) (v : β) :
    (mapSet m k v).map Prod.fst = if k ∈ m.map Prod.fst then m.map Prod.fst
      else m.map Prod.fst ++ [k] := by
  induction m with
  | nil => simp [mapSet]
  | cons q rest ih =>
    unfold mapSet
    by_cases hq : q.1 = k
    · simp [hq]
    · rw [if_neg hq, List.map_cons, ih]
      have hne : ¬ k = q.1 := fun h => hq h.symm
      by_cases hk : k ∈ rest.map Prod.fst
      · simp [hk]
      · rw [if_neg hk]
        have : k ∉ (q :: rest).map Prod.fst := by
          simp only [List.map_cons, List.mem_cons, not_or]
          exact ⟨hne, hk⟩
        rw [if_neg this]
        simp

theorem nodup_keys_mapSet {β : Type} (m : List (String × β)) (k : String) (v : β)
    (h : (m.map Prod.fst).Nodup) : ((mapSet m k v).map Prod.fst).Nodup := by
  rw [keys_mapSet]
  by_cases hk : k ∈ m.map Prod.fst
  · rw [if_pos hk]; exact h
  · rw [if_neg hk]
    exact List.Nodup.append h (List.nodup_singleton k) (by simpa using hk)

theorem mapGet_mapSet_self {β : Type} (m : List (String × β)) (k : String) (v : β) :
    mapGet (mapSet m k v) k = some v := by
  induction m with
  | nil => simp [mapSet, mapGet]
  | cons q rest ih =>
    unfold mapSet
    by_cases hq : q.1 = k
    · rw [if_pos hq]; simp [mapGet]
    · rw [if_neg hq]; unfold mapGet; rw [if_neg hq]; exact ih

theorem mapGet_mapSet_other {β : Type} (m : List (String × β)) (k k2 : String) (v : β)
    (h : k ≠ k2) : mapGet (mapSet m k v) k2 = mapGet m k2 := by
  induction m with
  | nil => simp [mapSet, mapGet, h]
  | cons q rest ih =>
    unfold mapSet
    by_cases hq : q.1 = k
    · rw [if_pos hq]
      have hq2 : ¬ q.1 = k2 := fun h2 => h (hq.symm.trans h2)
      simp [mapGet, h, hq2]
    · rw [if_neg hq]
      by_cases hq2 : q.1 = k2
      · simp [mapGet, hq2]
      · simp only [mapGet, hq2, if_false]; exact ih

theorem mem_of_mapGet {β : Type} (m : List (String × β)) (k : String) (v : β)
    (h : mapGet m k = some v) : (k, v) ∈ m := by
  induction m with
  | nil => simp [mapGet] at h
  | cons q rest ih =>
    unfold mapGet at h
    by_cases hq : q.1 = k
    · rw [if_pos hq] at h
      have hv : q.2 = v := by simpa using h
      have : q = (k, v) := Prod.ext hq hv
      rw [this]; exact List.mem_cons_self _ _
    · rw [if_neg hq] at h
      exact List.mem_cons_of_mem _ (ih h)

theorem mapGet_of_mem {β : Type} (m : List (String × β)) (k : String) (v : β)
    (hn : (m.map Prod.fst).Nodup) (h : (k, v) ∈ m) : mapGet m k = some v := by
  induction m with
  | nil => simp at h
  | cons q rest ih =>
    rw [List.map_cons, List.nodup_cons] at hn
    unfold mapGet
    rcases List.mem_cons.mp h with h | h
    · rw [← h]; simp
    · have hq : ¬ q.1 = k := by
        intro hq
        apply hn.1
        rw [hq]
        exact List.mem_map_of_mem Prod.fst h
      rw [if_neg hq]
      exact ih hn.2 h

/-- The fold that builds the index, from an arbitrary starting map. -/
theorem buildIndex_invariant (P : Platform) (manualEntries : List RawItem) :
    ∀ acc : List (String × Entry),
      ((acc.map Prod.fst).Nodup ∧ ∀ p ∈ acc, p.1 = p.2.id ∧ Canonical p.2) →
      let idx := manualEntries.foldl
        (fun manualIndex manual =>
          match parseEntry P manual "manual" with
          | some parsed => mapSet manualIndex parsed.id parsed
          | none => manualIndex) acc
      (idx.map Prod.fst).Nodup ∧ ∀ p ∈ idx, p.1 = p.2.id ∧ Canonical p.2 := by
  induction manualEntries with
  | nil => intro acc h; exact h
  | cons m ms ih =>
    intro acc h
    simp only [List.foldl_cons]
    apply ih
    cases hp : parseEntry P m "manual" with
    | none => exact h
    | some parsed =>
      refine ⟨nodup_keys_mapSet _ _ _ h.1, ?_⟩
      intro p hmem
      rcases mem_mapSet _ _ _ _ hmem with h1 | h1
      · rw [h1]
        exact ⟨rfl, parseEntry_canonical P m "manual" parsed hp⟩
      · exact h.2 p h1

theorem nodup_keys_buildManualIndex (P : Platform) (manualEntries : List RawItem) :
    ((buildManualIndex P manualEntries).map Prod.fst).Nodup :=
  (buildIndex_invariant P manualEntries [] ⟨List.nodup_nil, by simp⟩).1

theorem key_eq_id_buildManualIndex (P : Platform) (manualEntries : List RawItem)
    (p : String × Entry) (h : p ∈ buildManualIndex P manualEntries) : p.1 = p.2.id :=
  ((buildIndex_invariant P manualEntries [] ⟨List.nodup_nil, by simp⟩).2 p h).1

theorem canonical_buildManualIndex (P : Platform) (manualEntries : List RawItem)
    (p : String × Entry) (h : p ∈ buildManualIndex P manualEntries) : Canonical p.2 :=
  ((buildIndex_invariant P manualEntries [] ⟨List.nodup_nil, by simp⟩).2 p h).2

theorem scanCandidates_mem (P : Platform) (r c : Entry) (cs : List Entry)
    (h : scanCandidates P r cs = some c) : c ∈ cs := by
  obtain ⟨pre, post, hsplit, _, _⟩ := (scanCandidates_eq_some_iff P r c cs).mp h
  rw [hsplit]; simp

theorem findMatchingManual_mem (P : Platform) (r mm : Entry) (idx : List (String × Entry))
    (h : findMatchingManual P r idx = some mm) : ∃ k, (k, mm) ∈ idx := by
  unfold findMatchingManual at h
  by_cases hk : mapHas idx r.id = true
  · rw [if_pos hk] at h
    exact ⟨r.id, mem_of_mapGet idx r.id mm h⟩
  · rw [if_neg hk] at h
    have := scanCandidates_mem P r mm _ h
    simp only [mapValues, List.mem_map] at this
    obtain ⟨p, hp, hpe⟩ := this
    exact ⟨p.1, by rw [← hpe]; exact hp⟩


/-! ## Lemmas on the loop over the remote entries -/

theorem remoteStep_merged (P : Platform) (idx : List (String × Entry)) (st : MergeState)
    (remote : RawItem) :
    (remoteStep P idx st remote).merged = st.merged ++ (emitEntry P idx remote).toList := by
  unfold remoteStep emitEntry
  cases hp : parseEntry P remote "remote" with
  | none => simp
  | some pr =>
    cases hf : findMatchingManual P pr idx with
    | none => simp [hf]
    | some mm => simp [hf]

theorem foldl_remoteStep_merged (P : Platform) (idx : List (String × Entry))
    (remoteEntries : List RawItem) :
    ∀ st : MergeState, (remoteEntries.foldl (remoteStep P idx) st).merged =
      st.merged ++ remoteEntries.filterMap (emitEntry P idx) := by
  induction remoteEntries with
  | nil => intro st; simp
  | cons r rs ih =>
    intro st
    rw [List.foldl_cons, ih, remoteStep_merged, List.filterMap_cons]
    cases emitEntry P idx r with
    | none => simp
    | some e => simp

theorem processRemote_merged (P : Platform) (idx : List (String × Entry))
    (remoteEntries : List RawItem) :
    (processRemote P idx remoteEntries).merged = remoteEntries.filterMap (emitEntry P idx) := by
  unfold processRemote
  rw [foldl_remoteStep_merged]
  rfl

theorem mem_setAdd {α : Type} [DecidableEq α] (s : List α) (x y : α) :
    y ∈ setAdd s x ↔ y ∈ s ∨ y = x := by
  unfold setAdd
  by_cases hx : x ∈ s
  · rw [if_pos hx]
    constructor
    · exact Or.inl
    · rintro (h | h)
      · exact h
      · exact h ▸ hx
  · rw [if_neg hx]; simp

theorem remoteStep_consumed (P : Platform) (idx : List (String × Entry)) (st : MergeState)
    (remote : RawItem) (k : String) :
    k ∈ (remoteStep P idx st remote).consumedManual ↔
      k ∈ st.consumedManual ∨ ∃ pr mm, MatchedBy P idx remote pr mm ∧ mm.id = k := by
  unfold remoteStep MatchedBy
  cases hp : parseEntry P remote "remote" with
  | none => simp
  | some pr =>
    cases hfind : findMatchingManual P pr idx with
    | none =>
      simp only [hfind, Option.some.injEq]
      constructor
      · exact Or.inl
      · rintro (h | ⟨pr2, mm2, ⟨h1, h2⟩, _⟩)
        · exact h
        · subst h1
          rw [hfind] at h2
          cases h2
    | some mm =>
      simp only [hfind, mem_setAdd, Option.some.injEq]
      constructor
      · rintro (h | h)
        · exact Or.inl h
        · exact Or.inr ⟨pr, mm, ⟨rfl, hfind⟩, h.symm⟩
      · rintro (h | ⟨pr2, mm2, ⟨h1, h2⟩, h3⟩)
        · exact Or.inl h
        · subst h1
          rw [hfind] at h2
          have : mm = mm2 := by simpa using h2
          subst this
          exact Or.inr h3.symm

theorem foldl_remoteStep_consumed (P : Platform) (idx : List (String × Entry))
    (remoteEntries : List RawItem) (k : String) :
    ∀ st : MergeState, k ∈ (remoteEntries.foldl (remoteStep P idx) st).consumedManual ↔
      k ∈ st.consumedManual ∨
        ∃ remote ∈ remoteEntries, ∃ pr mm, MatchedBy P idx remote pr mm ∧ mm.id = k := by
  induction remoteEntries with
  | nil => intro st; simp
  | cons r rs ih =>
    intro st
    rw [List.foldl_cons, ih, remoteStep_consumed]
    constructor
    · rintro ((h | ⟨pr, mm, h1, h2⟩) | ⟨remote, hmem, pr, mm, h1, h2⟩)
      · exact Or.inl h
      · exact Or.inr ⟨r, List.mem_cons_self _ _, pr, mm, h1, h2⟩
      · exact Or.inr ⟨remote, List.mem_cons_of_mem _ hmem, pr, mm, h1, h2⟩
    · rintro (h | ⟨remote, hmem, pr, mm, h1, h2⟩)
      · exact Or.inl (Or.inl h)
      · rcases List.mem_cons.mp hmem with h | h
        · subst h
          exact Or.inl (Or.inr ⟨pr, mm, h1, h2⟩)
        · exact Or.inr ⟨remote, h, pr, mm, h1, h2⟩

theorem processRemote_consumed (P : Platform) (idx : List (String × Entry))
    (remoteEntries : List RawItem) (k : String) :
    k ∈ (processRemote P idx remoteEntries).consumedManual ↔
      ∃ remote ∈ remoteEntries, ∃ pr mm, MatchedBy P idx remote pr mm ∧ mm.id = k := by
  unfold processRemote
  rw [foldl_remoteStep_consumed]
  simp

theorem mem_leftoverManual (idx : List (String × Entry)) (consumed : List String) (e : Entry) :
    e ∈ leftoverManual idx consumed ↔ ∃ k, (k, e) ∈ idx ∧ k ∉ consumed := by
  simp only [leftoverManual, List.mem_map, List.mem_filter, Bool.not_eq_true']
  constructor
  · rintro ⟨p, ⟨hp, hk⟩, rfl⟩
    refine ⟨p.1, hp, ?_⟩
    simpa using hk
  · rintro ⟨k, hp, hk⟩
    refine ⟨(k, e), ⟨hp, ?_⟩, rfl⟩
    simpa using hk

/-! ## The final map changes nothing -/

theorem finalizeEntry_of_canonical (P : Platform) (e : Entry) (h : Canonical e) :
    finalizeEntry P e = e := by
  obtain ⟨hy, hz, hn, _⟩ := h
  unfold finalizeEntry
  rw [uniqueSortedYears_of_descending P e.years hy, numOrNull_of_ne_zero hz]
  cases hl : e.lastReviewed with
  | none =>
    have := hn hl
    cases e
    simp_all
  | some n =>
    cases e
    simp_all

theorem mergePair_canonical (P : Platform) (mm pr : Entry) :
    Canonical (mergePair P mm pr) := by
  refine ⟨descending_uniqueSortedYears P (yearsAsValues (mm.years ++ pr.years)), ?_, ?_, ?_⟩
  · show (numOrNull pr.lastReviewed).orElse _ ≠ some 0
    cases h1 : numOrNull pr.lastReviewed with
    | some n =>
      have := numOrNull_ne_zero pr.lastReviewed
      rw [h1] at this
      simpa using this
    | none =>
      simp only [Option.orElse]
      exact canonical_lastReviewed_orElse _ _
  · intro hnone
    have hnone2 : (numOrNull pr.lastReviewed).orElse (fun _ =>
      (numOrNull mm.lastReviewed).orElse (fun _ => numOrNull
        (uniqueSortedYears P (yearsAsValues (mm.years ++ pr.years))).head?)) = none := hnone
    show numOrNull (uniqueSortedYears P (yearsAsValues (mm.years ++ pr.years))).head? = none
    cases h1 : numOrNull pr.lastReviewed with
    | some n => simp [h1] at hnone2
    | none =>
      cases h2 : numOrNull mm.lastReviewed with
      | some n => simp [h1, h2] at hnone2
      | none => simpa [h1, h2] using hnone2
  · show (strOrNull pr.url).orElse (fun _ => strOrNull mm.url) ≠ some ""
    cases h1 : strOrNull pr.url with
    | some u =>
      have := strOrNull_ne_empty pr.url
      rw [h1] at this
      simpa using this
    | none => simpa using strOrNull_ne_empty mm.url

theorem emitEntry_canonical (P : Platform) (manualEntries : List RawItem) (remote : RawItem)
    (e : Entry) (h : emitEntry P (buildManualIndex P manualEntries) remote = some e) :
    Canonical e := by
  unfold emitEntry at h
  cases hp : parseEntry P remote "remote" with
  | none => simp [hp] at h
  | some pr =>
    have hc := parseEntry_canonical P remote "remote" pr hp
    cases hf : findMatchingManual P pr (buildManualIndex P manualEntries) with
    | none =>
      simp only [hp, hf, Option.some.injEq] at h
      exact h ▸ hc
    | some mm =>
      simp only [hp, hf, Option.some.injEq] at h
      exact h ▸ mergePair_canonical P mm pr

/-- The array `merged` just before the final `.map(...).sort(...)`. -/
theorem mergeEntries_eq (P : Platform) (manualEntries remoteEntries : List RawItem) :
    mergeEntries P manualEntries remoteEntries =
      sortBy (compareEntries P) (mergedBeforeSort P manualEntries remoteEntries) := by
  unfold mergeEntries mergedBeforeSort
  simp only [processRemote_merged]
  congr 1
  have : ∀ e ∈ remoteEntries.filterMap (emitEntry P (buildManualIndex P manualEntries)) ++
      leftoverManual (buildManualIndex P manualEntries)
        (processRemote P (buildManualIndex P manualEntries) remoteEntries).consumedManual,
      finalizeEntry P e = e := by
    intro e he
    apply finalizeEntry_of_canonical
    rcases List.mem_append.mp he with h | h
    · obtain ⟨r, _, hr⟩ := List.mem_filterMap.mp h
      exact emitEntry_canonical P manualEntries r e hr
    · obtain ⟨k, hk, _⟩ := (mem_leftoverManual _ _ e).mp h
      exact canonical_buildManualIndex P manualEntries (k, e) hk
  rw [List.map_congr_left this]
  exact List.map_id _

theorem mem_mergeEntries (P : Platform) (manualEntries remoteEntries : List RawItem)
    (e : Entry) : e ∈ mergeEntries P manualEntries remoteEntries ↔
      e ∈ mergedBeforeSort P manualEntries remoteEntries := by
  rw [mergeEntries_eq, mem_sortBy]


/-! ## Matched pairs -/

theorem matched_emitted (P : Platform) (manualEntries remoteEntries : List RawItem)
    (remote : RawItem) (pr mm : Entry) (hmem : remote ∈ remoteEntries)
    (hmatch : MatchedBy P (buildManualIndex P manualEntries) remote pr mm) :
    finalizeEntry P (mergePair P mm pr) = mergePair P mm pr ∧
    mergePair P mm pr ∈ mergeEntries P manualEntries remoteEntries := by
  refine ⟨finalizeEntry_of_canonical P _ (mergePair_canonical P mm pr), ?_⟩
  rw [mem_mergeEntries]
  unfold mergedBeforeSort
  apply List.mem_append_left
  rw [List.mem_filterMap]
  refine ⟨remote, hmem, ?_⟩
  unfold emitEntry
  rw [hmatch.1]
  simp only [hmatch.2]

theorem matched_canonical (P : Platform) (manualEntries : List RawItem)
    (remote : RawItem) (pr mm : Entry)
    (hmatch : MatchedBy P (buildManualIndex P manualEntries) remote pr mm) :
    Canonical pr ∧ Canonical mm ∧ (mm.id, mm) ∈ buildManualIndex P manualEntries := by
  obtain ⟨k, hk⟩ := findMatchingManual_mem P pr mm _ hmatch.2
  have hkey := key_eq_id_buildManualIndex P manualEntries (k, mm) hk
  refine ⟨parseEntry_canonical P remote "remote" pr hmatch.1,
    canonical_buildManualIndex P manualEntries (k, mm) hk, ?_⟩
  have : k = mm.id := hkey
  rw [← this]; exact hk

theorem le_zero_of_falsy_head (l : List Int) (hl : l.Pairwise (fun a b => b < a))
    (hn : numOrNull l.head? = none) : ∀ z ∈ l, z ≤ 0 := by
  intro z hz
  cases l with
  | nil => simp at hz
  | cons a t =>
    have ha : a = 0 := by
      by_contra hne
      simp [numOrNull, hne] at hn
    rcases List.mem_cons.mp hz with h | h
    · omega
    · have := (List.pairwise_cons.mp hl).1 z h
      omega

theorem le_head_of_descending (l : List Int) (hl : l.Pairwise (fun a b => b < a)) (a : Int)
    (ha : l.head? = some a) : ∀ z ∈ l, z ≤ a := by
  intro z hz
  cases l with
  | nil => simp at hz
  | cons b t =>
    have hb : b = a := by simpa using ha
    rcases List.mem_cons.mp hz with h | h
    · omega
    · have := (List.pairwise_cons.mp hl).1 z h
      omega

theorem zero_mem_of_falsy_head (l : List Int) (hn : numOrNull l.head? = none) (hne : l ≠ []) :
    (0 : Int) ∈ l := by
  cases l with
  | nil => exact absurd rfl hne
  | cons a t =>
    have ha : a = 0 := by
      by_contra hne2
      simp [numOrNull, hne2] at hn
    simp [ha]

/-- When neither side has a usable first year, the union has none either. -/
theorem numOrNull_head_union (P : Platform) (xs ys : List Int)
    (hx : xs.Pairwise (fun a b => b < a)) (hy : ys.Pairwise (fun a b => b < a))
    (h1 : numOrNull xs.head? = none) (h2 : numOrNull ys.head? = none) :
    numOrNull (uniqueSortedYears P (yearsAsValues (xs ++ ys))).head? = none := by
  cases hh : (uniqueSortedYears P (yearsAsValues (xs ++ ys))).head? with
  | none => rfl
  | some y =>
    have hmem : y ∈ uniqueSortedYears P (yearsAsValues (xs ++ ys)) := List.mem_of_mem_head? hh
    rw [mem_uniqueSortedYears_values, List.mem_append] at hmem
    have hdesc := descending_uniqueSortedYears P (yearsAsValues (xs ++ ys))
    have hyle : y ≤ 0 := by
      rcases hmem with h | h
      · exact le_zero_of_falsy_head _ hx h1 y h
      · exact le_zero_of_falsy_head _ hy h2 y h
    have h0 : (0 : Int) ∈ uniqueSortedYears P (yearsAsValues (xs ++ ys)) := by
      rw [mem_uniqueSortedYears_values, List.mem_append]
      rcases hmem with h | h
      · exact Or.inl (zero_mem_of_falsy_head _ h1 (List.ne_nil_of_mem h))
      · exact Or.inr (zero_mem_of_falsy_head _ h2 (List.ne_nil_of_mem h))
    have := le_head_of_descending _ hdesc y hh 0 h0
    have hy0 : y = 0 := by omega
    simp [numOrNull, hy0]

/-- C3 (amended): for a remote entry that `mergeEntries` matches to a manual
entry, the emitted entry is in the output and its id, name, organization, role,
url and lastReviewed are each the normalized remote value when that value is
present and non-empty and the normalized manual value otherwise; its source is
`merged` when the remote source is `remote` and the manual source is `manual`,
and is the remote source in every other case (also when that source is itself
`merged`). -/
theorem mergeEntries_matched_fields (P : Platform) (manualEntries remoteEntries : List RawItem)
    (remote : RawItem) (pr mm : Entry) (hmem : remote ∈ remoteEntries)
    (hmatch : MatchedBy P (buildManualIndex P manualEntries) remote pr mm) :
    ∃ out ∈ mergeEntries P manualEntries remoteEntries,
      out = finalizeEntry P (mergePair P mm pr) ∧
      out.id = (if pr.id ≠ "" then pr.id else mm.id) ∧
      out.name = (if pr.name ≠ "" then pr.name else mm.name) ∧
      out.organization = (if pr.organization ≠ "" then pr.organization else mm.organization) ∧
      out.role = (if pr.role ≠ "" then pr.role else mm.role) ∧
      out.url = (match pr.url with
        | some u => if u ≠ "" then some u else mm.url
        | none => mm.url) ∧
      out.lastReviewed = (match pr.lastReviewed with
        | some y => if y ≠ 0 then some y else mm.lastReviewed
        | none => mm.lastReviewed) ∧
      (pr.source = "remote" ∧ mm.source = "manual" → out.source = "merged") ∧
      (¬ (pr.source = "remote" ∧ mm.source = "manual") → out.source = pr.source) := by
  obtain ⟨hfin, hout⟩ := matched_emitted P manualEntries remoteEntries remote pr mm hmem hmatch
  obtain ⟨hcp, hcm, _⟩ := matched_canonical P manualEntries remote pr mm hmatch
  refine ⟨mergePair P mm pr, hout, hfin.symm, rfl, rfl, rfl, rfl, ?_, ?_, ?_, ?_⟩
  · show (strOrNull pr.url).orElse (fun _ => strOrNull mm.url) = _
    rw [strOrNull_of_ne_empty hcm.2.2.2]
    cases hu : pr.url with
    | none => simp [strOrNull]
    | some u =>
      by_cases hne : u = ""
      · simp [strOrNull, hne]
      · simp [strOrNull, hne]
  · show (numOrNull pr.lastReviewed).orElse (fun _ =>
      (numOrNull mm.lastReviewed).orElse (fun _ => numOrNull
        (uniqueSortedYears P (yearsAsValues (mm.years ++ pr.years))).head?)) = _
    have hmm : (numOrNull mm.lastReviewed).orElse (fun _ => numOrNull
        (uniqueSortedYears P (yearsAsValues (mm.years ++ pr.years))).head?) =
        mm.lastReviewed ∨ pr.lastReviewed ≠ none := by
      rw [numOrNull_of_ne_zero hcm.2.1]
      cases hl : mm.lastReviewed with
      | some y => left; simp
      | none =>
        by_cases hpl : pr.lastReviewed = none
        · left
          simp only [Option.orElse]
          exact numOrNull_head_union P mm.years pr.years hcm.1 hcp.1 (hcm.2.2.1 hl)
            (hcp.2.2.1 hpl)
        · right; exact hpl
    cases hpl : pr.lastReviewed with
    | none =>
      rcases hmm with h | h
      · simp only [numOrNull, Option.orElse]
        exact h
      · exact absurd hpl h
    | some y =>
      have hy : y ≠ 0 := by
        intro h0
        apply hcp.2.1
        rw [hpl, h0]
      simp [numOrNull, hy]
  · intro h
    show (if pr.source = "remote" ∧ mm.source = "manual" then "merged" else pr.source) = _
    rw [if_pos h]
  · intro h
    show (if pr.source = "remote" ∧ mm.source = "manual" then "merged" else pr.source) = _
    rw [if_neg h]

/-- C3, counterexample: a remote entry already tagged `merged` is matched, and
the emitted entry has source `merged` although the remote source is not
`remote`. -/
theorem merged_source_counterexample :
    MatchedBy asciiPlatform (buildManualIndex asciiPlatform [sampleManual])
      flaggedRemote flaggedRemoteParsed sampleManualParsed ∧
    finalizeEntry asciiPlatform (mergePair asciiPlatform sampleManualParsed flaggedRemoteParsed) ∈
      mergeEntries asciiPlatform [sampleManual] [flaggedRemote] ∧
    ¬ ((finalizeEntry asciiPlatform
          (mergePair asciiPlatform sampleManualParsed flaggedRemoteParsed)).source = "merged" ↔
        (flaggedRemoteParsed.source = "remote" ∧ sampleManualParsed.source = "manual")) := by
  decide

/-- C3, witness: the amended statement at the pair of the union-merge example. -/
theorem mergeEntries_matched_fields_witness :
    sampleRemote ∈ [sampleRemote] ∧
    MatchedBy asciiPlatform (buildManualIndex asciiPlatform [sampleManual])
      sampleRemote sampleRemoteParsed sampleManualParsed ∧
    ∃ out ∈ mergeEntries asciiPlatform [sampleManual] [sampleRemote],
      out = finalizeEntry asciiPlatform
        (mergePair asciiPlatform sampleManualParsed sampleRemoteParsed) ∧
      out.id = (if sampleRemoteParsed.id ≠ "" then sampleRemoteParsed.id
        else sampleManualParsed.id) ∧
      out.name = (if sampleRemoteParsed.name ≠ "" then sampleRemoteParsed.name
        else sampleManualParsed.name) ∧
      out.organization = (if sampleRemoteParsed.organization ≠ ""
        then sampleRemoteParsed.organization else sampleManualParsed.organization) ∧
      out.role = (if sampleRemoteParsed.role ≠ "" then sampleRemoteParsed.role
        else sampleManualParsed.role) ∧
      out.url = (match sampleRemoteParsed.url with
        | some u => if u ≠ "" then some u else sampleManualParsed.url
        | none => sampleManualParsed.url) ∧
      out.lastReviewed = (match sampleRemoteParsed.lastReviewed with
        | some y => if y ≠ 0 then some y else sampleManualParsed.lastReviewed
        | none => sampleManualParsed.lastReviewed) ∧
      (sampleRemoteParsed.source = "remote" ∧ sampleManualParsed.source = "manual" →
        out.source = "merged") ∧
      (¬ (sampleRemoteParsed.source = "remote" ∧ sampleManualParsed.source = "manual") →
        out.source = sampleRemoteParsed.source) :=
  ⟨by decide, by decide,
    mergeEntries_matched_fields asciiPlatform [sampleManual] [sampleRemote] sampleRemote
      sampleRemoteParsed sampleManualParsed (by decide) (by decide)⟩


/-- C4: for a remote entry that `mergeEntries` matches to a manual entry, the
emitted entry is in the output, its years are strictly descending and are
exactly the years of the two normalized entries, and its groupIds, aliases and
putCodes hold exactly the values of either side, each once; manual years
`[2021]` with remote years `[2023]` give years `[2023, 2021]` and lastReviewed
`2023`. -/
theorem mergeEntries_matched_unions (P : Platform) (manualEntries remoteEntries : List RawItem)
    (remote : RawItem) (pr mm : Entry) (hmem : remote ∈ remoteEntries)
    (hmatch : MatchedBy P (buildManualIndex P manualEntries) remote pr mm) :
    (∃ out ∈ mergeEntries P manualEntries remoteEntries,
      out = finalizeEntry P (mergePair P mm pr) ∧
      out.years.Pairwise (fun a b => b < a) ∧
      (∀ n, n ∈ out.years ↔ n ∈ mm.years ∨ n ∈ pr.years) ∧
      out.groupIds.Nodup ∧ (∀ g, g ∈ out.groupIds ↔ g ∈ mm.groupIds ∨ g ∈ pr.groupIds) ∧
      out.aliases.Nodup ∧ (∀ a, a ∈ out.aliases ↔ a ∈ mm.aliases ∨ a ∈ pr.aliases) ∧
      out.putCodes.Nodup ∧ (∀ c, c ∈ out.putCodes ↔ c ∈ mm.putCodes ∨ c ∈ pr.putCodes)) ∧
    (mergeEntries P [sampleManual] [sampleRemote]).map (fun e => (e.years, e.lastReviewed)) =
      [([2023, 2021], some 2023)] := by
  obtain ⟨hfin, hout⟩ := matched_emitted P manualEntries remoteEntries remote pr mm hmem hmatch
  refine ⟨⟨mergePair P mm pr, hout, hfin.symm,
    descending_uniqueSortedYears P (yearsAsValues (mm.years ++ pr.years)), ?_,
    nodup_arrayFromSet _, ?_, nodup_arrayFromSet _, ?_, nodup_arrayFromSet _, ?_⟩, ?_⟩
  · intro n
    show n ∈ uniqueSortedYears P (yearsAsValues (mm.years ++ pr.years)) ↔ _
    rw [mem_uniqueSortedYears_values, List.mem_append]
  · intro g
    show g ∈ arrayFromSet (mm.groupIds ++ pr.groupIds) ↔ _
    rw [mem_arrayFromSet, List.mem_append]
  · intro g
    show g ∈ arrayFromSet (mm.aliases ++ pr.aliases) ↔ _
    rw [mem_arrayFromSet, List.mem_append]
  · intro g
    show g ∈ arrayFromSet (mm.putCodes ++ pr.putCodes) ↔ _
    rw [mem_arrayFromSet, List.mem_append]
  · rfl

/-- C4, witness: the statement at the pair of the union-merge example. -/
theorem mergeEntries_matched_unions_witness :
    sampleRemote ∈ [sampleRemote] ∧
    MatchedBy asciiPlatform (buildManualIndex asciiPlatform [sampleManual])
      sampleRemote sampleRemoteParsed sampleManualParsed ∧
    (∃ out ∈ mergeEntries asciiPlatform [sampleManual] [sampleRemote],
      out = finalizeEntry asciiPlatform
        (mergePair asciiPlatform sampleManualParsed sampleRemoteParsed) ∧
      out.years.Pairwise (fun a b => b < a) ∧
      (∀ n, n ∈ out.years ↔ n ∈ sampleManualParsed.years ∨ n ∈ sampleRemoteParsed.years) ∧
      out.groupIds.Nodup ∧
      (∀ g, g ∈ out.groupIds ↔ g ∈ sampleManualParsed.groupIds ∨
        g ∈ sampleRemoteParsed.groupIds) ∧
      out.aliases.Nodup ∧
      (∀ a, a ∈ out.aliases ↔ a ∈ sampleManualParsed.aliases ∨
        a ∈ sampleRemoteParsed.aliases) ∧
      out.putCodes.Nodup ∧
      (∀ c, c ∈ out.putCodes ↔ c ∈ sampleManualParsed.putCodes ∨
        c ∈ sampleRemoteParsed.putCodes)) ∧
    (mergeEntries asciiPlatform [sampleManual] [sampleRemote]).map
      (fun e => (e.years, e.lastReviewed)) = [([2023, 2021], some 2023)] :=
  ⟨by decide, by decide,
    mergeEntries_matched_unions asciiPlatform [sampleManual] [sampleRemote] sampleRemote
      sampleRemoteParsed sampleManualParsed (by decide) (by decide)⟩


/-! ## The final sort -/

theorem compareEntries_le_iff (P : Platform) (a b : Entry) :
    compareEntries P a b ≤ 0 ↔
      numOrZero b.lastReviewed < numOrZero a.lastReviewed ∨
      (numOrZero a.lastReviewed = numOrZero b.lastReviewed ∧
        P.localeCompare a.name b.name ≤ 0) := by
  unfold compareEntries
  by_cases h : numOrZero a.lastReviewed = numOrZero b.lastReviewed
  · simp [h]
  · simp only [ne_eq, h, not_false_eq_true, if_true, false_and, or_false]
    omega

theorem compareChars_total : ∀ a b : List Char, compareChars a b ≤ 0 ∨ compareChars b a ≤ 0
  | [], [] => by simp [compareChars]
  | [], _ :: _ => by simp [compareChars]
  | _ :: _, [] => by simp [compareChars]
  | a :: as, b :: bs => by
    unfold compareChars
    by_cases h1 : a.toNat < b.toNat
    · simp [h1]
    · by_cases h2 : b.toNat < a.toNat
      · simp [h2]
      · simp only [h1, h2, if_false]
        exact compareChars_total as bs

theorem compareChars_trans : ∀ a b c : List Char,
    compareChars a b ≤ 0 → compareChars b c ≤ 0 → compareChars a c ≤ 0
  | [], [], [] => by simp [compareChars]
  | [], [], _ :: _ => by simp [compareChars]
  | [], _ :: _, [] => by simp [compareChars]
  | [], _ :: _, _ :: _ => by simp [compareChars]
  | _ :: _, [], _ => by simp [compareChars]
  | _ :: _, _ :: _, [] => by simp [compareChars]
  | a :: as, b :: bs, c :: cs => by
    intro hab hbc
    unfold compareChars at hab hbc ⊢
    by_cases h1 : a.toNat < b.toNat
    · by_cases h2 : b.toNat < c.toNat
      · have : a.toNat < c.toNat := by omega
        simp [this]
      · by_cases h3 : c.toNat < b.toNat
        · simp [h2, h3] at hbc
        · have : a.toNat < c.toNat := by omega
          simp [this]
    · by_cases h1b : b.toNat < a.toNat
      · simp [h1, h1b] at hab
      · simp only [h1, h1b, if_false] at hab
        by_cases h2 : b.toNat < c.toNat
        · have : a.toNat < c.toNat := by omega
          simp [this]
        · by_cases h3 : c.toNat < b.toNat
          · simp [h2, h3] at hbc
          · simp only [h2, h3, if_false] at hbc
            have e1 : ¬ a.toNat < c.toNat := by omega
            have e2 : ¬ c.toNat < a.toNat := by omega
            simp only [e1, e2, if_false]
            exact compareChars_trans as bs cs hab hbc

/-- C5: when `localeCompare` is a consistent comparator (total and transitive),
the output of `mergeEntries` is ordered: an entry placed before another has a
`lastReviewed` (counted as `0` when absent) at least as large, and when the two
are equal its name is not after the other name in the `localeCompare` order. -/
theorem mergeEntries_sorted (P : Platform)
    (htotal : ∀ a b : String, P.localeCompare a b ≤ 0 ∨ P.localeCompare b a ≤ 0)
    (htrans : ∀ a b c : String, P.localeCompare a b ≤ 0 → P.localeCompare b c ≤ 0 →
      P.localeCompare a c ≤ 0)
    (manualEntries remoteEntries : List RawItem) :
    (mergeEntries P manualEntries remoteEntries).Pairwise (fun a b =>
      numOrZero b.lastReviewed ≤ numOrZero a.lastReviewed ∧
      (numOrZero a.lastReviewed = numOrZero b.lastReviewed →
        P.localeCompare a.name b.name ≤ 0)) := by
  have hs := sortBy_sorted (compareEntries P)
    (fun a b => by
      rw [compareEntries_le_iff, compareEntries_le_iff]
      rcases lt_trichotomy (numOrZero a.lastReviewed) (numOrZero b.lastReviewed) with h | h | h
      · exact Or.inr (Or.inl h)
      · rcases htotal a.name b.name with h2 | h2
        · exact Or.inl (Or.inr ⟨h, h2⟩)
        · exact Or.inr (Or.inr ⟨h.symm, h2⟩)
      · exact Or.inl (Or.inl h))
    (fun a b c => by
      rw [compareEntries_le_iff, compareEntries_le_iff, compareEntries_le_iff]
      rintro (h1 | ⟨h1, n1⟩) (h2 | ⟨h2, n2⟩)
      · exact Or.inl (by omega)
      · exact Or.inl (by omega)
      · exact Or.inl (by omega)
      · exact Or.inr ⟨h1.trans h2, htrans _ _ _ n1 n2⟩)
    ((processRemote P (buildManualIndex P manualEntries) remoteEntries).merged ++
      leftoverManual (buildManualIndex P manualEntries)
        (processRemote P (buildManualIndex P manualEntries) remoteEntries).consumedManual
      |>.map (finalizeEntry P))
  refine List.Pairwise.imp ?_ hs
  intro a b hab
  rw [compareEntries_le_iff] at hab
  rcases hab with h | ⟨h, n⟩
  · exact ⟨by omega, fun he => by omega⟩
  · exact ⟨by omega, fun _ => n⟩

/-- C5, witness: the code-point comparison of `asciiPlatform` is a consistent
comparator. -/
theorem mergeEntries_sorted_witness :
    (∀ a b : String, asciiPlatform.localeCompare a b ≤ 0 ∨
      asciiPlatform.localeCompare b a ≤ 0) ∧
    (∀ a b c : String, asciiPlatform.localeCompare a b ≤ 0 →
      asciiPlatform.localeCompare b c ≤ 0 → asciiPlatform.localeCompare a c ≤ 0) ∧
    (mergeEntries asciiPlatform [sampleManual, undatedManual] [sampleRemote, datedRemote]).Pairwise
      (fun a b =>
        numOrZero b.lastReviewed ≤ numOrZero a.lastReviewed ∧
        (numOrZero a.lastReviewed = numOrZero b.lastReviewed →
          asciiPlatform.localeCompare a.name b.name ≤ 0)) :=
  ⟨fun a b => compareChars_total a.data b.data,
    fun a b c => compareChars_trans a.data b.data c.data,
    mergeEntries_sorted asciiPlatform (fun a b => compareChars_total a.data b.data)
      (fun a b c => compareChars_trans a.data b.data c.data)
      [sampleManual, undatedManual] [sampleRemote, datedRemote]⟩


/-! ## Where the entries of the index and of the output come from -/

theorem buildIndex_values (P : Platform) (Q : Entry → Prop) (manualEntries : List RawItem)
    (hQ : ∀ item ∈ manualEntries, ∀ e, parseEntry P item "manual" = some e → Q e) :
    ∀ acc : List (String × Entry), (∀ p ∈ acc, Q p.2) →
      ∀ p ∈ manualEntries.foldl
        (fun manualIndex manual =>
          match parseEntry P manual "manual" with
          | some parsed => mapSet manualIndex parsed.id parsed
          | none => manualIndex) acc, Q p.2 := by
  induction manualEntries with
  | nil => intro acc h; exact h
  | cons m ms ih =>
    intro acc h
    simp only [List.foldl_cons]
    apply ih (fun item hi => hQ item (List.mem_cons_of_mem _ hi))
    cases hp : parseEntry P m "manual" with
    | none => exact h
    | some parsed =>
      intro p hmem
      rcases mem_mapSet _ _ _ _ hmem with h1 | h1
      · rw [h1]
        exact hQ m (List.mem_cons_self _ _) parsed hp
      · exact h p h1

theorem buildManualIndex_parsed (P : Platform) (manualEntries : List RawItem)
    (p : String × Entry) (h : p ∈ buildManualIndex P manualEntries) :
    ∃ item ∈ manualEntries, parseEntry P item "manual" = some p.2 :=
  buildIndex_values P (fun e => ∃ item ∈ manualEntries, parseEntry P item "manual" = some e)
    manualEntries (fun item hi e he => ⟨item, hi, he⟩) [] (by simp) p h

/-- Every entry of the output is an unmatched parsed remote entry, the merge of
a matched pair, or an unconsumed entry of the index. -/
theorem mergedBeforeSort_cases (P : Platform) (manualEntries remoteEntries : List RawItem)
    (out : Entry) (h : out ∈ mergedBeforeSort P manualEntries remoteEntries) :
    (∃ remote ∈ remoteEntries, parseEntry P remote "remote" = some out ∧
      findMatchingManual P out (buildManualIndex P manualEntries) = none) ∨
    (∃ remote ∈ remoteEntries, ∃ pr mm,
      MatchedBy P (buildManualIndex P manualEntries) remote pr mm ∧ out = mergePair P mm pr) ∨
    (∃ k, (k, out) ∈ buildManualIndex P manualEntries ∧
      k ∉ (processRemote P (buildManualIndex P manualEntries) remoteEntries).consumedManual) := by
  unfold mergedBeforeSort at h
  rcases List.mem_append.mp h with h | h
  · obtain ⟨r, hr, he⟩ := List.mem_filterMap.mp h
    unfold emitEntry at he
    cases hp : parseEntry P r "remote" with
    | none => simp [hp] at he
    | some pr =>
      cases hf : findMatchingManual P pr (buildManualIndex P manualEntries) with
      | none =>
        simp only [hp, hf, Option.some.injEq] at he
        subst he
        exact Or.inl ⟨r, hr, hp, hf⟩
      | some mm =>
        simp only [hp, hf, Option.some.injEq] at he
        exact Or.inr (Or.inl ⟨r, hr, pr, mm, ⟨hp, hf⟩, he.symm⟩)
  · exact Or.inr (Or.inr ((mem_leftoverManual _ _ out).mp h))

/-- C6, failing inputs: a manual entry with year 2020 and an explicit
`lastReviewed` of 2018 comes out with `lastReviewed` 2018, and a manual entry
with year 2023 matched with a remote entry with year 2021 comes out with years
`[2023, 2021]` and `lastReviewed` 2021; in both outputs `years` is non-empty and
`lastReviewed` is not `years[0]`. -/
theorem mergeEntries_lastReviewed_stale :
    (mergeEntries asciiPlatform [explicitManual] []).map
      (fun e => (e.years, e.lastReviewed)) = [([2020], some 2018)] ∧
    (mergeEntries asciiPlatform [newerManual] [olderRemote]).map
      (fun e => (e.years, e.lastReviewed)) = [([2023, 2021], some 2021)] ∧
    (¬ ∀ e ∈ mergeEntries asciiPlatform [explicitManual] [],
      e.years ≠ [] → e.lastReviewed = e.years.head?) ∧
    (¬ ∀ e ∈ mergeEntries asciiPlatform [newerManual] [olderRemote],
      e.years ≠ [] → e.lastReviewed = e.years.head?) := by
  decide

/-! ## Normalising a canonical entry again -/

theorem foldl_setAdd_extends {α : Type} [DecidableEq α] (xs : List α) :
    ∀ acc : List α, ∃ rest, xs.foldl setAdd acc = acc ++ rest := by
  induction xs with
  | nil => intro acc; exact ⟨[], by simp⟩
  | cons y ys ih =>
    intro acc
    obtain ⟨rest, hrest⟩ := ih (setAdd acc y)
    rw [List.foldl_cons, hrest]
    unfold setAdd
    by_cases hy : y ∈ acc
    · exact ⟨rest, by rw [if_pos hy]⟩
    · exact ⟨y :: rest, by rw [if_neg hy]; simp⟩

theorem head_arrayFromSet_cons {α : Type} [DecidableEq α] (x : α) (xs : List α) :
    (arrayFromSet (x :: xs)).head? = some x := by
  unfold arrayFromSet
  rw [List.foldl_cons]
  obtain ⟨rest, hrest⟩ := foldl_setAdd_extends xs (setAdd [] x)
  rw [hrest]
  simp [setAdd]

theorem cleanStrings_props (xs : Option (List String)) :
    (cleanStrings xs).Nodup ∧ ∀ s ∈ cleanStrings xs, s ≠ "" := by
  cases xs with
  | none => simp [cleanStrings]
  | some l =>
    refine ⟨nodup_arrayFromSet _, ?_⟩
    intro s hs
    simp only [cleanStrings, mem_arrayFromSet, List.mem_filter, decide_eq_true_eq] at hs
    exact hs.2

theorem cleanStrings_of_clean (l : List String) (hn : l.Nodup) (he : ∀ s ∈ l, s ≠ "") :
    cleanStrings (some l) = l := by
  show arrayFromSet (l.filter (fun s => decide (s ≠ ""))) = l
  have : l.filter (fun s => decide (s ≠ "")) = l := by
    rw [List.filter_eq_self]
    intro s hs
    simpa using he s hs
  rw [this, arrayFromSet_of_nodup l hn]

theorem strOr_some (s b : String) : strOr (some s) b = orElseStr s b := rfl

theorem orElseStr_empty (s : String) : orElseStr s "" = s := by
  unfold orElseStr
  by_cases h : s = ""
  · simp [h]
  · simp [h]

theorem orElseStr_of_ne {s : String} (h : s ≠ "") (b : String) : orElseStr s b = s := by
  simp [orElseStr, h]

theorem orElseStr_strOr (a : Option String) (b : String) :
    orElseStr (strOr a "") b = strOr a b := by
  cases a with
  | none => simp [strOr, orElseStr]
  | some s =>
    by_cases h : s = ""
    · simp [strOr, orElseStr, h]
    · simp [strOr, orElseStr, h]

/-- A canonical entry whose lists are clean, whose source is set and whose id
is either set or cannot be derived is a fixed point of `parseEntry`. -/
theorem parseEntry_toRaw (P : Platform) (n : Entry) (d : String) (hc : Canonical n)
    (hs : n.source ≠ "")
    (hg : n.groupIds.Nodup ∧ ∀ s ∈ n.groupIds, s ≠ "")
    (ha : n.aliases.Nodup ∧ ∀ s ∈ n.aliases, s ≠ "")
    (hp : n.putCodes.Nodup ∧ ∀ s ∈ n.putCodes, s ≠ "")
    (hid : n.id ≠ "" ∨
      (slugify P (orElseStr n.name (orElseStr n.organization
          (strOr (firstGroupId n.toRaw) ""))) = "" ∧
        slugify P (n.name ++ "-" ++ n.organization) = "")) :
    parseEntry P (.obj n.toRaw) d = some n := by
  obtain ⟨hy, hz, hnone, hu⟩ := hc
  have hlr : (numOrNull n.lastReviewed).orElse (fun _ => numOrNull n.years.head?) =
      n.lastReviewed := by
    rw [numOrNull_of_ne_zero hz]
    cases hl : n.lastReviewed with
    | none => simpa using hnone hl
    | some y => rfl
  simp only [parseEntry, Entry.toRaw, strOr_some, orElseStr_empty,
    uniqueSortedYears_of_descending P n.years hy, hlr, strOrNull_of_ne_empty hu,
    orElseStr_of_ne hs, cleanStrings_of_clean _ hg.1 hg.2, cleanStrings_of_clean _ ha.1 ha.2,
    cleanStrings_of_clean _ hp.1 hp.2]
  have hrole : orElseStr n.role (strOr none "") = n.role := by
    show orElseStr n.role "" = n.role
    exact orElseStr_empty _
  rw [hrole]
  by_cases hne : n.id = ""
  · rcases hid with h | ⟨h1, h2⟩
    · exact absurd hne h
    · have h1b : slugify P (orElseStr n.name (orElseStr n.organization
          (strOr (firstGroupId
            { id := some n.id, name := some n.name, organization := some n.organization,
              role := some n.role, reviewRole := none, years := yearsAsValues n.years,
              lastReviewed := n.lastReviewed, url := n.url, source := some n.source,
              groupIds := some n.groupIds, aliases := some n.aliases,
              putCodes := some n.putCodes }) ""))) = "" := h1
      have hid0 : orElseStr n.id (slugify P (orElseStr n.name (orElseStr n.organization
          (strOr (firstGroupId
            { id := some n.id, name := some n.name, organization := some n.organization,
              role := some n.role, reviewRole := none, years := yearsAsValues n.years,
              lastReviewed := n.lastReviewed, url := n.url, source := some n.source,
              groupIds := some n.groupIds, aliases := some n.aliases,
              putCodes := some n.putCodes }) "")))) = "" := by
        rw [h1b, hne]; rfl
      rw [hid0]
      simp only [if_true, h2]
      cases n
      simp_all
  · rw [orElseStr_of_ne hne]
    simp only [hne, if_false]


/-! ## The fields of a parsed object -/

theorem strOr_eq_empty (a : Option String) (b : String) :
    strOr a b = "" ↔ strOr a "" = "" ∧ b = "" := by
  cases a with
  | none => simp [strOr]
  | some s =>
    by_cases h : s = ""
    · simp [strOr, h]
    · simp [strOr, h]

theorem parseEntry_obj (P : Platform) (e : RawEntry) (d : String) :
    ∃ n, parseEntry P (.obj e) d = some n ∧
      n.name = strOr e.name "" ∧ n.organization = strOr e.organization "" ∧
      n.source = strOr e.source d ∧
      n.groupIds = cleanStrings e.groupIds ∧ n.aliases = cleanStrings e.aliases ∧
      n.putCodes = cleanStrings e.putCodes ∧
      (n.id = "" ↔
        strOr e.id "" = "" ∧
        slugify P (strOr e.name (strOr e.organization (strOr (firstGroupId e) ""))) = "" ∧
        slugify P (strOr e.name "" ++ "-" ++ strOr e.organization "") = "") := by
  simp only [parseEntry]
  by_cases h0 : strOr e.id
      (slugify P (strOr e.name (strOr e.organization (strOr (firstGroupId e) "")))) = ""
  · rw [if_pos h0]
    refine ⟨_, rfl, rfl, rfl, rfl, rfl, rfl, rfl, ?_⟩
    have := (strOr_eq_empty _ _).mp h0
    constructor
    · intro h
      exact ⟨this.1, this.2, h⟩
    · intro h
      exact h.2.2
  · rw [if_neg h0]
    refine ⟨_, rfl, rfl, rfl, rfl, rfl, rfl, rfl, ?_⟩
    constructor
    · intro h
      exact absurd h h0
    · intro h
      exact absurd ((strOr_eq_empty _ _).mpr ⟨h.1, h.2.1⟩) h0

theorem firstGroupId_toRaw (e : RawEntry) (n : Entry) (hg : n.groupIds = cleanStrings e.groupIds)
    (h : ∀ g, firstGroupId e = some g → g ≠ "") :
    firstGroupId n.toRaw = firstGroupId e := by
  have hraw : firstGroupId n.toRaw = (match n.groupIds with
      | g :: _ => some g
      | [] => none) := by
    unfold firstGroupId Entry.toRaw
    cases n.groupIds <;> rfl
  rw [hraw, hg]
  cases hgs : e.groupIds with
  | none => simp [cleanStrings, firstGroupId, hgs]
  | some l =>
    cases l with
    | nil => simp [cleanStrings, firstGroupId, hgs, arrayFromSet]
    | cons g gs =>
      have hne : g ≠ "" := h g (by simp [firstGroupId, hgs])
      have hhead : (cleanStrings (some (g :: gs))).head? = some g := by
        show (arrayFromSet ((g :: gs).filter (fun s => decide (s ≠ "")))).head? = some g
        rw [List.filter_cons_of_pos (by simpa using hne)]
        exact head_arrayFromSet_cons g _
      have hfirst : firstGroupId e = some g := by simp [firstGroupId, hgs]
      rw [hfirst]
      cases hc : cleanStrings (some (g :: gs)) with
      | nil => rw [hc] at hhead; simp at hhead
      | cons x xs =>
        rw [hc] at hhead
        simp only [List.head?_cons, Option.some.injEq] at hhead
        rw [hhead]

/-- C7 (amended): for a raw object and a non-empty first default source tag,
normalising the normalized entry again gives the same entry, provided the
normalized id is non-empty or the first group id of the raw entry, if there is
one, is non-empty. -/
theorem parseEntry_idempotent (P : Platform) (e : RawEntry) (d1 d2 : String) (hd : d1 ≠ "")
    (hid : (∀ n, parseEntry P (.obj e) d1 = some n → n.id ≠ "") ∨
      (∀ g, firstGroupId e = some g → g ≠ "")) :
    ∃ n, parseEntry P (.obj e) d1 = some n ∧ parseEntry P (.obj n.toRaw) d2 = some n := by
  obtain ⟨n, hn, hname, horg, hsrc, hg, ha, hp, hidn⟩ := parseEntry_obj P e d1
  refine ⟨n, hn, ?_⟩
  have hc := parseEntry_canonical P (.obj e) d1 n hn
  have hs : n.source ≠ "" := by
    rw [hsrc]
    intro h
    exact hd ((strOr_eq_empty _ _).mp h).2
  apply parseEntry_toRaw P n d2 hc hs (hg ▸ cleanStrings_props _) (ha ▸ cleanStrings_props _)
    (hp ▸ cleanStrings_props _)
  by_cases hne : n.id = ""
  · right
    rcases hid with h | h
    · exact absurd hne (h n hn)
    · have hfacts := hidn.mp hne
      rw [firstGroupId_toRaw e n hg h, hname, horg, orElseStr_strOr]
      refine ⟨?_, hfacts.2.2⟩
      have : orElseStr (strOr e.organization "") (strOr (firstGroupId e) "") =
          strOr e.organization (strOr (firstGroupId e) "") := orElseStr_strOr _ _
      rw [this]
      exact hfacts.2.1
  · exact Or.inl hne

/-- C7, counterexample: with group ids `["", "g"]` and nothing else the first
pass yields the id `""` and the second pass the id `"g"`. -/
theorem parseEntry_idempotent_counterexample :
    (parseEntry asciiPlatform (.obj emptyFirstGroup) "manual").bind
      (fun n => parseEntry asciiPlatform (.obj n.toRaw) "manual") ≠
    parseEntry asciiPlatform (.obj emptyFirstGroup) "manual" := by
  decide

/-- C7, witness: the amended statement on an entry with a name. -/
theorem parseEntry_idempotent_witness :
    "manual" ≠ "" ∧
    ((∀ n, parseEntry asciiPlatform (.obj namedEntry) "manual" = some n → n.id ≠ "") ∨
      (∀ g, firstGroupId namedEntry = some g → g ≠ "")) ∧
    ∃ n, parseEntry asciiPlatform (.obj namedEntry) "manual" = some n ∧
      parseEntry asciiPlatform (.obj n.toRaw) "remote" = some n :=
  ⟨by decide, Or.inr (by decide),
    parseEntry_idempotent asciiPlatform namedEntry "manual" "remote" (by decide)
      (Or.inr (by decide))⟩

/-- C9 (amended): for a raw object the normalized id is empty exactly when the
raw id is absent or empty, the slug of the first non-empty one of name,
organization and first group id is empty, and the slug of name, hyphen,
organization is empty; in every other case it is non-empty. -/
theorem parseEntry_id_empty_iff (P : Platform) (e : RawEntry) (d : String) :
    ∃ n, parseEntry P (.obj e) d = some n ∧
      (n.id = "" ↔
        strOr e.id "" = "" ∧
        slugify P (strOr e.name (strOr e.organization (strOr (firstGroupId e) ""))) = "" ∧
        slugify P (strOr e.name "" ++ "-" ++ strOr e.organization "") = "") := by
  obtain ⟨n, hn, _, _, _, _, _, _, hidn⟩ := parseEntry_obj P e d
  exact ⟨n, hn, hidn⟩

/-- C9, counterexample: the name `!!!` is not empty, yet the normalized id is
the empty string. -/
theorem parseEntry_id_counterexample :
    (parseEntry asciiPlatform (.obj punctuationOnly) "manual").map (fun n => n.id) = some "" ∧
    ¬ (strOr punctuationOnly.name "" = "" ∧ strOr punctuationOnly.organization "" = "") := by
  decide


/-! ## Unmatched manual entries -/

theorem mapGet_buildIndex_other (P : Platform) (k : String) (items : List RawItem)
    (h : ∀ e ∈ items.filterMap (fun item => parseEntry P item "manual"), e.id ≠ k) :
    ∀ acc : List (String × Entry),
      mapGet (items.foldl
        (fun manualIndex manual =>
          match parseEntry P manual "manual" with
          | some parsed => mapSet manualIndex parsed.id parsed
          | none => manualIndex) acc) k = mapGet acc k := by
  induction items with
  | nil => intro acc; rfl
  | cons m ms ih =>
    intro acc
    rw [List.foldl_cons]
    have hms : ∀ e ∈ ms.filterMap (fun item => parseEntry P item "manual"), e.id ≠ k := by
      intro e he
      apply h e
      rw [List.filterMap_cons]
      cases parseEntry P m "manual" with
      | none => exact he
      | some x => exact List.mem_cons_of_mem _ he
    rw [ih hms]
    cases hp : parseEntry P m "manual" with
    | none => rfl
    | some parsed =>
      have hne : parsed.id ≠ k := by
        apply h parsed
        rw [List.filterMap_cons, hp]
        exact List.mem_cons_self _ _
      exact mapGet_mapSet_other acc parsed.id k parsed hne

theorem mapGet_buildManualIndex_last (P : Platform) (pre post : List RawItem) (m : RawItem)
    (pm : Entry) (hpm : parseEntry P m "manual" = some pm)
    (hpost : ∀ e ∈ post.filterMap (fun item => parseEntry P item "manual"), e.id ≠ pm.id) :
    mapGet (buildManualIndex P (pre ++ m :: post)) pm.id = some pm := by
  unfold buildManualIndex
  rw [List.foldl_append, List.foldl_cons, mapGet_buildIndex_other P pm.id post hpost]
  simp only [hpm]
  exact mapGet_mapSet_self _ _ _

theorem matched_is_fallback_or_id (P : Platform) (idx : List (String × Entry))
    (hkey : ∀ p ∈ idx, p.1 = p.2.id) (pr mm : Entry)
    (h : findMatchingManual P pr idx = some mm) : pr.id = mm.id ∨ FallbackMatch P pr mm := by
  unfold findMatchingManual at h
  by_cases hk : mapHas idx pr.id = true
  · rw [if_pos hk] at h
    left
    exact hkey (pr.id, mm) (mem_of_mapGet idx pr.id mm h)
  · rw [if_neg hk] at h
    right
    obtain ⟨_, _, _, hm, _⟩ := (scanCandidates_eq_some_iff P pr mm _).mp h
    exact hm

/-- C8 (amended): a manual object entry that no later manual entry overwrites
(none after it has the same normalized id) and whose normalized form shares no
id, no non-empty name up to case, no group id and no alias with any normalized
remote entry appears in the output of `mergeEntries`, equal in every field to
its normalized form. -/
theorem mergeEntries_unmatched_manual (P : Platform) (pre post remoteEntries : List RawItem)
    (m : RawEntry) (pm : Entry)
    (hpm : parseEntry P (.obj m) "manual" = some pm)
    (hpost : ∀ e ∈ post.filterMap (fun item => parseEntry P item "manual"), e.id ≠ pm.id)
    (hno : ∀ pr ∈ remoteEntries.filterMap (fun item => parseEntry P item "remote"),
      pr.id ≠ pm.id ∧ ¬ FallbackMatch P pr pm) :
    pm ∈ mergeEntries P (pre ++ RawItem.obj m :: post) remoteEntries := by
  have hget := mapGet_buildManualIndex_last P pre post (.obj m) pm hpm hpost
  have hmem := mem_of_mapGet _ _ _ hget
  rw [mem_mergeEntries]
  unfold mergedBeforeSort
  apply List.mem_append_right
  rw [mem_leftoverManual]
  refine ⟨pm.id, hmem, ?_⟩
  rw [processRemote_consumed]
  rintro ⟨remote, hr, pr, mm, hmatch, hid⟩
  obtain ⟨_, _, hmm⟩ := matched_canonical P (pre ++ RawItem.obj m :: post) remote pr mm hmatch
  have hget2 := mapGet_of_mem _ _ _ (nodup_keys_buildManualIndex P _) hmm
  rw [hid, hget] at hget2
  have heq : pm = mm := by simpa using hget2
  subst heq
  have hpr : pr ∈ remoteEntries.filterMap (fun item => parseEntry P item "remote") :=
    List.mem_filterMap.mpr ⟨remote, hr, hmatch.1⟩
  obtain ⟨h1, h2⟩ := hno pr hpr
  rcases matched_is_fallback_or_id P _
    (fun p hp => key_eq_id_buildManualIndex P _ p hp) pr pm hmatch.2 with h | h
  · exact h1 h
  · exact h2 h

/-- C8, counterexample: with no remote entry at all, a manual entry followed by
another one with the same id is absent from the output. -/
theorem unmatched_manual_counterexample :
    parseEntry asciiPlatform (.obj overwrittenManual) "manual" = some overwrittenParsed ∧
    overwrittenParsed ∉ mergeEntries asciiPlatform
      [RawItem.obj overwrittenManual, RawItem.obj overwritingManual] [] := by
  decide

/-- C8, witness: the amended statement for a manual entry between two others. -/
theorem mergeEntries_unmatched_manual_witness :
    parseEntry asciiPlatform (.obj loneManual) "manual" = some loneManualParsed ∧
    (∀ e ∈ [sampleManual].filterMap (fun item => parseEntry asciiPlatform item "manual"),
      e.id ≠ loneManualParsed.id) ∧
    (∀ pr ∈ [sampleRemote, datedRemote].filterMap
        (fun item => parseEntry asciiPlatform item "remote"),
      pr.id ≠ loneManualParsed.id ∧ ¬ FallbackMatch asciiPlatform pr loneManualParsed) ∧
    loneManualParsed ∈ mergeEntries asciiPlatform
      ([RawItem.obj overwrittenManual] ++ RawItem.obj loneManual :: [sampleManual])
      [sampleRemote, datedRemote] :=
  ⟨by decide, by decide, by decide,
    mergeEntries_unmatched_manual asciiPlatform [RawItem.obj overwrittenManual] [sampleManual]
      [sampleRemote, datedRemote] loneManual loneManualParsed (by decide) (by decide)
      (by decide)⟩


/-! ## Ids of the output -/

theorem emitEntry_id (P : Platform) (idx : List (String × Entry)) (remote : RawItem)
    (pr : Entry) (hp : parseEntry P remote "remote" = some pr) (hne : pr.id ≠ "") :
    ∃ e, emitEntry P idx remote = some e ∧ e.id = pr.id := by
  unfold emitEntry
  rw [hp]
  cases hf : findMatchingManual P pr idx with
  | none => exact ⟨pr, by simp only [hf], rfl⟩
  | some mm =>
    refine ⟨mergePair P mm pr, by simp only [hf], ?_⟩
    show orElseStr pr.id mm.id = pr.id
    exact orElseStr_of_ne hne _

theorem emitted_ids (P : Platform) (idx : List (String × Entry)) :
    ∀ remoteEntries : List RawItem,
      (∀ pr ∈ remoteEntries.filterMap (fun item => parseEntry P item "remote"), pr.id ≠ "") →
      (remoteEntries.filterMap (emitEntry P idx)).map Entry.id =
        (remoteEntries.filterMap (fun item => parseEntry P item "remote")).map Entry.id := by
  intro remoteEntries
  induction remoteEntries with
  | nil => intro _; rfl
  | cons r rs ih =>
    intro h
    rw [List.filterMap_cons, List.filterMap_cons]
    cases hp : parseEntry P r "remote" with
    | none =>
      have hemit : emitEntry P idx r = none := by
        unfold emitEntry
        rw [hp]
      rw [hemit]
      apply ih
      intro pr hpr
      apply h pr
      rw [List.filterMap_cons, hp]
      exact hpr
    | some pr =>
      have hne : pr.id ≠ "" := by
        apply h pr
        rw [List.filterMap_cons, hp]
        exact List.mem_cons_self _ _
      obtain ⟨e, he, hid⟩ := emitEntry_id P idx r pr hp hne
      rw [he]
      simp only [List.map_cons, hid]
      congr 1
      apply ih
      intro pr2 hpr2
      apply h pr2
      rw [List.filterMap_cons, hp]
      exact List.mem_cons_of_mem _ hpr2

theorem leftover_ids_nodup (idx : List (String × Entry)) (consumed : List String)
    (hkey : ∀ p ∈ idx, p.1 = p.2.id) (hn : (idx.map Prod.fst).Nodup) :
    ((leftoverManual idx consumed).map Entry.id).Nodup := by
  unfold leftoverManual
  rw [List.map_map]
  have hsub : (idx.filter (fun p => !(consumed.contains p.1))).Sublist idx :=
    List.filter_sublist idx
  have hcongr : (idx.filter (fun p => !(consumed.contains p.1))).map (Entry.id ∘ Prod.snd) =
      (idx.filter (fun p => !(consumed.contains p.1))).map Prod.fst := by
    apply List.map_congr_left
    intro p hp
    exact (hkey p (List.mem_of_mem_filter hp)).symm
  rw [hcongr]
  exact (hsub.map Prod.fst).nodup hn

/-- C10 (amended): for every manual list and every remote list whose
normalized entries have pairwise distinct, non-empty ids, no two entries of
the output of `mergeEntries` have the same id; and, for every manual list and
remote list, with no condition on the ids, a manual entry that a remote entry
was merged with is not emitted again among the unmatched manual entries. -/
theorem mergeEntries_ids_nodup (P : Platform) (manualEntries remoteEntries : List RawItem) :
    (((remoteEntries.filterMap (fun item => parseEntry P item "remote")).map Entry.id).Nodup →
      (∀ pr ∈ remoteEntries.filterMap (fun item => parseEntry P item "remote"),
        pr.id ≠ "") →
      ((mergeEntries P manualEntries remoteEntries).map Entry.id).Nodup) ∧
    ∀ remote ∈ remoteEntries, ∀ pr mm,
      MatchedBy P (buildManualIndex P manualEntries) remote pr mm →
      mm ∉ leftoverManual (buildManualIndex P manualEntries)
        (processRemote P (buildManualIndex P manualEntries) remoteEntries).consumedManual := by
  have hkey : ∀ p ∈ buildManualIndex P manualEntries, p.1 = p.2.id :=
    fun p hp => key_eq_id_buildManualIndex P manualEntries p hp
  constructor
  · intro hdistinct hne
    rw [mergeEntries_eq]
    apply ((sortBy_perm (compareEntries P) _).map Entry.id).nodup_iff.mpr
    unfold mergedBeforeSort
    rw [List.map_append, emitted_ids P _ remoteEntries hne]
    apply List.Nodup.append hdistinct
      (leftover_ids_nodup _ _ hkey (nodup_keys_buildManualIndex P manualEntries))
    intro x hx1 hx2
    obtain ⟨pr, hpr, hprid⟩ := List.mem_map.mp hx1
    obtain ⟨r, hr, hparse⟩ := List.mem_filterMap.mp hpr
    obtain ⟨e, he, heid⟩ := List.mem_map.mp hx2
    obtain ⟨k, hk, hnc⟩ := (mem_leftoverManual _ _ e).mp he
    have hkx : k = x := by rw [← heid]; exact hkey (k, e) hk
    have hget : mapGet (buildManualIndex P manualEntries) pr.id = some e := by
      apply mapGet_of_mem _ _ _ (nodup_keys_buildManualIndex P manualEntries)
      rw [hprid, ← hkx]
      exact hk
    have hhas : mapHas (buildManualIndex P manualEntries) pr.id = true :=
      (mapHas_iff_mapGet _ _).mpr ⟨e, hget⟩
    have hfind : findMatchingManual P pr (buildManualIndex P manualEntries) = some e := by
      unfold findMatchingManual
      rw [if_pos hhas]
      exact hget
    apply hnc
    rw [processRemote_consumed]
    exact ⟨r, hr, pr, e, ⟨hparse, hfind⟩, by rw [heid, hkx]⟩
  · intro remote hr pr mm hmatch hmem
    obtain ⟨k, hk, hnc⟩ := (mem_leftoverManual _ _ mm).mp hmem
    apply hnc
    rw [processRemote_consumed]
    exact ⟨remote, hr, pr, mm, hmatch, (hkey (k, mm) hk).symm⟩

/-- C10, counterexample: a remote entry that occurs twice is emitted twice with
the same id; and one manual entry is matched by two remote entries with
different ids, and both merges, which differ, are in the output. -/
theorem mergeEntries_ids_counterexample :
    ¬ ((mergeEntries asciiPlatform [] [repeatedRemote, repeatedRemote]).map Entry.id).Nodup ∧
    (MatchedBy asciiPlatform (buildManualIndex asciiPlatform [sharedManual])
        firstNamesake firstNamesakeParsed sharedManualParsed ∧
      MatchedBy asciiPlatform (buildManualIndex asciiPlatform [sharedManual])
        secondNamesake secondNamesakeParsed sharedManualParsed ∧
      mergePair asciiPlatform sharedManualParsed firstNamesakeParsed ∈
        mergeEntries asciiPlatform [sharedManual] [firstNamesake, secondNamesake] ∧
      mergePair asciiPlatform sharedManualParsed secondNamesakeParsed ∈
        mergeEntries asciiPlatform [sharedManual] [firstNamesake, secondNamesake] ∧
      mergePair asciiPlatform sharedManualParsed firstNamesakeParsed ≠
        mergePair asciiPlatform sharedManualParsed secondNamesakeParsed) := by
  decide

/-- C10, witness: the amended statement on remote entries with distinct ids. -/
theorem mergeEntries_ids_nodup_witness :
    (([sampleRemote, datedRemote].filterMap
      (fun item => parseEntry asciiPlatform item "remote")).map Entry.id).Nodup ∧
    (∀ pr ∈ [sampleRemote, datedRemote].filterMap
        (fun item => parseEntry asciiPlatform item "remote"), pr.id ≠ "") ∧
    ((mergeEntries asciiPlatform [sampleManual, undatedManual]
      [sampleRemote, datedRemote]).map Entry.id).Nodup ∧
    ∀ remote ∈ [sampleRemote, datedRemote], ∀ pr mm,
      MatchedBy asciiPlatform (buildManualIndex asciiPlatform [sampleManual, undatedManual])
        remote pr mm →
      mm ∉ leftoverManual (buildManualIndex asciiPlatform [sampleManual, undatedManual])
        (processRemote asciiPlatform (buildManualIndex asciiPlatform
          [sampleManual, undatedManual]) [sampleRemote, datedRemote]).consumedManual :=
  ⟨by decide, by decide,
    (mergeEntries_ids_nodup asciiPlatform [sampleManual, undatedManual]
      [sampleRemote, datedRemote]).1 (by decide) (by decide),
    (mergeEntries_ids_nodup asciiPlatform [sampleManual, undatedManual]
      [sampleRemote, datedRemote]).2⟩


/-! ## Items that are not objects -/

theorem foldl_filter_of_skip {α β : Type} (f : β → α → β) (p : α → Bool)
    (hskip : ∀ acc x, p x = false → f acc x = acc) (xs : List α) :
    ∀ acc : β, (xs.filter p).foldl f acc = xs.foldl f acc := by
  induction xs with
  | nil => intro acc; rfl
  | cons x rest ih =>
    intro acc
    cases hx : p x with
    | true => rw [List.filter_cons_of_pos hx, List.foldl_cons, List.foldl_cons, ih]
    | false =>
      rw [List.filter_cons_of_neg (by simp [hx]), List.foldl_cons, hskip acc x hx, ih]

theorem parseEntry_eq_none_iff (P : Platform) (item : RawItem) (d : String) :
    parseEntry P item d = none ↔ ∃ v, item = RawItem.other v := by
  cases item with
  | other v => simp [parseEntry]
  | obj e =>
    obtain ⟨n, hn, _⟩ := parseEntry_obj P e d
    simp [hn]

theorem parseEntry_of_not_object (P : Platform) (item : RawItem) (d : String)
    (h : isObject item = false) : parseEntry P item d = none := by
  cases item with
  | other v => rfl
  | obj e => simp [isObject] at h

theorem buildManualIndex_filter (P : Platform) (manualEntries : List RawItem) :
    buildManualIndex P (manualEntries.filter isObject) = buildManualIndex P manualEntries := by
  unfold buildManualIndex
  apply foldl_filter_of_skip
  intro acc x hx
  simp only [parseEntry_of_not_object P x "manual" hx]

theorem processRemote_filter (P : Platform) (idx : List (String × Entry))
    (remoteEntries : List RawItem) :
    processRemote P idx (remoteEntries.filter isObject) = processRemote P idx remoteEntries := by
  unfold processRemote
  apply foldl_filter_of_skip
  intro acc x hx
  unfold remoteStep
  simp only [parseEntry_of_not_object P x "remote" hx]

/-- C11: `parseEntry` produces no entry exactly when its input is not an object
(`null`, `undefined` or another scalar), and `mergeEntries` returns on any two
lists what it returns on the same lists with every item that is not an object
removed. -/
theorem mergeEntries_skips_non_objects (P : Platform) :
    (∀ (item : RawItem) (d : String),
      parseEntry P item d = none ↔ ∃ v, item = RawItem.other v) ∧
    ∀ manualEntries remoteEntries : List RawItem,
      mergeEntries P manualEntries remoteEntries =
        mergeEntries P (manualEntries.filter isObject) (remoteEntries.filter isObject) := by
  refine ⟨parseEntry_eq_none_iff P, ?_⟩
  intro manualEntries remoteEntries
  unfold mergeEntries
  simp only [buildManualIndex_filter, processRemote_filter]


/-! ## Order of the criteria across candidates -/

theorem fallbackMatch_iff (P : Platform) (r c : Entry) :
    FallbackMatch P r c ↔ NameMatch P r c ∨ GroupMatch r c ∨ AliasMatch r c := Iff.rfl

/-- C13 (amended): when the index has no entry under the remote id, the matcher
returns the first entry, in index order, that matches by name, by group id or
by alias, whichever it is. So a name-matching entry is returned when no entry
before it matches by any criterion; if no entry matches by name, a
group-matching entry is returned when no entry before it matches by group id
or alias; and an entry that matches by group id or by alias is returned when
no entry before it matches, even if a later entry matches by name. -/
theorem findMatchingManual_first_match (P : Platform) (r : Entry)
    (idx : List (String × Entry)) (hid : mapHas idx r.id = false) :
    (∀ pre c post, mapValues idx = pre ++ c :: post → NameMatch P r c →
      (∀ x ∈ pre, ¬ NameMatch P r x ∧ ¬ GroupMatch r x ∧ ¬ AliasMatch r x) →
      findMatchingManual P r idx = some c) ∧
    (∀ pre c post, mapValues idx = pre ++ c :: post →
      (∀ x ∈ mapValues idx, ¬ NameMatch P r x) → GroupMatch r c →
      (∀ x ∈ pre, ¬ GroupMatch r x ∧ ¬ AliasMatch r x) →
      findMatchingManual P r idx = some c) ∧
    (∀ pre c post, mapValues idx = pre ++ c :: post →
      (GroupMatch r c ∨ AliasMatch r c) →
      (∀ x ∈ pre, ¬ NameMatch P r x ∧ ¬ GroupMatch r x ∧ ¬ AliasMatch r x) →
      findMatchingManual P r idx = some c) := by
  have key : ∀ pre c post, mapValues idx = pre ++ c :: post → FallbackMatch P r c →
      (∀ x ∈ pre, ¬ NameMatch P r x ∧ ¬ GroupMatch r x ∧ ¬ AliasMatch r x) →
      findMatchingManual P r idx = some c := by
    intro pre c post hsplit hc hpre
    simp only [findMatchingManual, hid, Bool.false_eq_true, if_false]
    rw [scanCandidates_eq_some_iff]
    refine ⟨pre, post, hsplit, hc, ?_⟩
    intro x hx
    rw [fallbackMatch_iff]
    have := hpre x hx
    tauto
  refine ⟨?_, ?_, ?_⟩
  · intro pre c post hsplit hc hpre
    exact key pre c post hsplit (Or.inl hc) hpre
  · intro pre c post hsplit hname hc hpre
    refine key pre c post hsplit (Or.inr (Or.inl hc)) ?_
    intro x hx
    have hmem : x ∈ mapValues idx := by rw [hsplit]; simp [hx]
    exact ⟨hname x hmem, hpre x hx⟩
  · intro pre c post hsplit hc hpre
    exact key pre c post hsplit (Or.inr hc) hpre

/-- C13, counterexample: the index holds an entry matching only by group id
before one matching by name, and the matcher returns the former; it holds an
entry matching only by alias before one matching by group id, and the matcher
returns the former. -/
theorem findMatchingManual_priority_counterexample :
    (mapHas [("g", groupOnlyCandidate), ("n", nameOnlyCandidate)] probeRemote.id = false ∧
      NameMatch asciiPlatform probeRemote nameOnlyCandidate ∧
      ¬ NameMatch asciiPlatform probeRemote groupOnlyCandidate ∧
      findMatchingManual asciiPlatform probeRemote
        [("g", groupOnlyCandidate), ("n", nameOnlyCandidate)] = some groupOnlyCandidate) ∧
    (mapHas [("al", aliasOnlyCandidate), ("g", groupOnlyCandidate)] probeRemote.id = false ∧
      (∀ c ∈ mapValues [("al", aliasOnlyCandidate), ("g", groupOnlyCandidate)],
        ¬ NameMatch asciiPlatform probeRemote c) ∧
      GroupMatch probeRemote groupOnlyCandidate ∧
      ¬ GroupMatch probeRemote aliasOnlyCandidate ∧
      findMatchingManual asciiPlatform probeRemote
        [("al", aliasOnlyCandidate), ("g", groupOnlyCandidate)] = some aliasOnlyCandidate) := by
  decide

/-- C13, witness: the amended statement on an index whose first entry matches
nothing. -/
theorem findMatchingManual_first_match_witness :
    mapHas [("u", unrelatedCandidate), ("g", groupOnlyCandidate), ("n", nameOnlyCandidate)]
      probeRemote.id = false ∧
    (∀ pre c post,
      mapValues [("u", unrelatedCandidate), ("g", groupOnlyCandidate),
        ("n", nameOnlyCandidate)] = pre ++ c :: post →
      NameMatch asciiPlatform probeRemote c →
      (∀ x ∈ pre, ¬ NameMatch asciiPlatform probeRemote x ∧ ¬ GroupMatch probeRemote x ∧
        ¬ AliasMatch probeRemote x) →
      findMatchingManual asciiPlatform probeRemote
        [("u", unrelatedCandidate), ("g", groupOnlyCandidate), ("n", nameOnlyCandidate)] =
        some c) ∧
    findMatchingManual asciiPlatform probeRemote
      [("u", unrelatedCandidate), ("g", groupOnlyCandidate), ("n", nameOnlyCandidate)] =
      some groupOnlyCandidate :=
  ⟨by decide,
    (findMatchingManual_first_match asciiPlatform probeRemote
      [("u", unrelatedCandidate), ("g", groupOnlyCandidate), ("n", nameOnlyCandidate)]
      (by decide)).1,
    (findMatchingManual_first_match asciiPlatform probeRemote
      [("u", unrelatedCandidate), ("g", groupOnlyCandidate), ("n", nameOnlyCandidate)]
      (by decide)).2.2 [unrelatedCandidate] groupOnlyCandidate [nameOnlyCandidate] rfl
      (Or.inl (by decide)) (by decide)⟩


/-! ## The shape of a slug -/

theorem slugify_eq_cut (P : Platform) (text : String) :
    slugify P text = String.mk ((slugBeforeCut P text).take 120) := rfl

theorem replaceRuns_chars : ∀ (b : Bool) (cs : List Char),
    ∀ c ∈ replaceRuns b cs, isSlugOrHyphen c = true := by
  intro b cs
  induction cs generalizing b with
  | nil => intro c hc; simp [replaceRuns] at hc
  | cons d ds ih =>
    intro c hc
    unfold replaceRuns at hc
    by_cases hd : isSlugChar d = true
    · rw [if_pos hd] at hc
      rcases List.mem_cons.mp hc with h | h
      · rw [h]; simp [isSlugOrHyphen, hd]
      · exact ih false c h
    · rw [if_neg hd] at hc
      cases b with
      | true =>
        simp only [if_true] at hc
        exact ih true c hc
      | false =>
        simp only [Bool.false_eq_true, if_false] at hc
        rcases List.mem_cons.mp hc with h | h
        · rw [h]; simp [isSlugOrHyphen]
        · exact ih true c h

theorem hyphen_not_slugChar : isSlugChar '-' = false := by decide

theorem replaceRuns_noDouble : ∀ (cs : List Char) (b : Bool),
    noDoubleHyphen (replaceRuns b cs) = true ∧
    (b = true → (replaceRuns b cs).head? ≠ some '-') := by
  intro cs
  induction cs with
  | nil => intro b; simp [replaceRuns, noDoubleHyphen]
  | cons d ds ih =>
    intro b
    unfold replaceRuns
    by_cases hd : isSlugChar d = true
    · rw [if_pos hd]
      have hne : d ≠ '-' := by
        intro h
        rw [h, hyphen_not_slugChar] at hd
        cases hd
      refine ⟨?_, ?_⟩
      · cases hr : replaceRuns false ds with
        | nil => simp [noDoubleHyphen]
        | cons x xs =>
          have := (ih false).1
          rw [hr] at this
          simp [noDoubleHyphen, this, hne]
      · intro _
        simp [hne]
    · rw [if_neg hd]
      cases b with
      | true =>
        rw [if_pos rfl]
        exact ih true
      | false =>
        simp only [Bool.false_eq_true, if_false]
        refine ⟨?_, by simp⟩
        cases hr : replaceRuns true ds with
        | nil => simp [noDoubleHyphen]
        | cons x xs =>
          have h1 := (ih true).1
          have h2 := (ih true).2 rfl
          rw [hr] at h1 h2
          have hx : x ≠ '-' := by simpa using h2
          simp [noDoubleHyphen, h1, hx]

theorem noDoubleHyphen_append_left : ∀ (xs ys : List Char),
    noDoubleHyphen (xs ++ ys) = true → noDoubleHyphen xs = true := by
  intro xs
  induction xs with
  | nil => intro ys _; rfl
  | cons a t ih =>
    intro ys h
    cases t with
    | nil => rfl
    | cons b t2 =>
      simp only [List.cons_append, noDoubleHyphen, Bool.and_eq_true] at h ⊢
      exact ⟨h.1, ih ys (by simpa using h.2)⟩

theorem noDoubleHyphen_append_right : ∀ (xs ys : List Char),
    noDoubleHyphen (xs ++ ys) = true → noDoubleHyphen ys = true := by
  intro xs
  induction xs with
  | nil => intro ys h; exact h
  | cons a t ih =>
    intro ys h
    apply ih ys
    cases hl : t ++ ys with
    | nil => rfl
    | cons b rest =>
      rw [List.cons_append, hl] at h
      simp only [noDoubleHyphen, Bool.and_eq_true] at h
      exact h.2

/-- The trim keeps a middle part of the text. -/
theorem trimHyphens_split (cs : List Char) :
    ∃ pre post, cs = pre ++ (trimHyphens cs ++ post) := by
  refine ⟨cs.takeWhile (fun c => c == '-'),
    ((cs.dropWhile (fun c => c == '-')).reverse.takeWhile (fun c => c == '-')).reverse, ?_⟩
  unfold trimHyphens
  rw [← List.reverse_append, List.takeWhile_append_dropWhile, List.reverse_reverse,
    List.takeWhile_append_dropWhile]

theorem head_dropWhile_hyphen (cs : List Char) :
    (cs.dropWhile (fun c => c == '-')).head? ≠ some '-' := by
  induction cs with
  | nil => simp
  | cons a t ih =>
    by_cases ha : a = '-'
    · rw [List.dropWhile_cons_of_pos (by simp [ha])]
      exact ih
    · rw [List.dropWhile_cons_of_neg (by simp [ha])]
      simp [ha]

theorem head_of_append_left (xs ys : List Char) (h : (xs ++ ys).head? ≠ some '-') :
    xs.head? ≠ some '-' := by
  cases xs with
  | nil => simp
  | cons a t => simpa using h

theorem trimHyphens_head (cs : List Char) : (trimHyphens cs).head? ≠ some '-' := by
  have hd := head_dropWhile_hyphen cs
  have hsplit : cs.dropWhile (fun c => c == '-') = trimHyphens cs ++
      ((cs.dropWhile (fun c => c == '-')).reverse.takeWhile (fun c => c == '-')).reverse := by
    unfold trimHyphens
    rw [← List.reverse_append, List.takeWhile_append_dropWhile, List.reverse_reverse]
  rw [hsplit] at hd
  exact head_of_append_left _ _ hd

theorem trimHyphens_last (cs : List Char) : (trimHyphens cs).getLast? ≠ some '-' := by
  unfold trimHyphens
  rw [List.getLast?_reverse]
  exact head_dropWhile_hyphen _

/-- What holds of every slug: at most 120 characters, all of them `a`-`z`,
`0`-`9` or hyphens, no two hyphens in a row, no hyphen in front, and no hyphen
at the end unless the text was cut at 120 characters. -/
theorem slugify_shape (P : Platform) (text : String) :
    (slugify P text).data.length ≤ 120 ∧
    (∀ c ∈ (slugify P text).data, isSlugOrHyphen c = true) ∧
    noDoubleHyphen (slugify P text).data = true ∧
    (slugify P text).data.head? ≠ some '-' ∧
    ((slugBeforeCut P text).length ≤ 120 → (slugify P text).data.getLast? ≠ some '-') := by
  rw [slugify_eq_cut]
  show ((slugBeforeCut P text).take 120).length ≤ 120 ∧ _
  obtain ⟨pre, post, hsplit⟩ := trimHyphens_split (replaceRuns false
    (P.toLowerCase (String.mk ((P.normalizeNFKD text).data.filter
      (fun c => !isCombiningMark c)))).data)
  have hcut : slugBeforeCut P text =
      (slugBeforeCut P text).take 120 ++ (slugBeforeCut P text).drop 120 :=
    (List.take_append_drop 120 _).symm
  refine ⟨List.length_take_le 120 _, ?_, ?_, ?_, ?_⟩
  · intro c hc
    apply replaceRuns_chars false _ c
    rw [hsplit]
    have : c ∈ slugBeforeCut P text := List.mem_of_mem_take hc
    exact List.mem_append_right _ (List.mem_append_left _ this)
  · have h1 := (replaceRuns_noDouble (P.toLowerCase (String.mk
      ((P.normalizeNFKD text).data.filter (fun c => !isCombiningMark c)))).data false).1
    rw [hsplit] at h1
    have h2 := noDoubleHyphen_append_left _ _ (noDoubleHyphen_append_right _ _ h1)
    have h3 : noDoubleHyphen (slugBeforeCut P text) = true := h2
    rw [hcut] at h3
    exact noDoubleHyphen_append_left _ _ h3
  · have h1 : (slugBeforeCut P text).head? ≠ some '-' := trimHyphens_head _
    rw [hcut] at h1
    exact head_of_append_left _ _ h1
  · intro hlen
    rw [List.take_of_length_le hlen]
    exact trimHyphens_last _


theorem not_combining_of_slugOrHyphen (c : Char) (h : isSlugOrHyphen c = true) :
    isCombiningMark c = false := by
  unfold isSlugOrHyphen isSlugChar at h
  unfold isCombiningMark
  simp only [Bool.or_eq_true, Bool.and_eq_true, decide_eq_true_eq, beq_iff_eq] at h
  have hlt : c.toNat < 0x300 := by
    rcases h with (h | h) | h
    · omega
    · omega
    · rw [h]; decide
  simp only [Bool.and_eq_false_imp, decide_eq_true_eq, decide_eq_false_iff_not]
  intro h2
  omega

theorem replaceRuns_fixed : ∀ (cs : List Char) (b : Bool),
    (∀ c ∈ cs, isSlugOrHyphen c = true) → noDoubleHyphen cs = true →
    (b = true → cs.head? ≠ some '-') → replaceRuns b cs = cs := by
  intro cs
  induction cs with
  | nil => intro b _ _ _; rfl
  | cons d ds ih =>
    intro b hchars hnd hhead
    have hds : ∀ c ∈ ds, isSlugOrHyphen c = true :=
      fun c hc => hchars c (List.mem_cons_of_mem _ hc)
    have hnd2 : noDoubleHyphen ds = true :=
      noDoubleHyphen_append_right [d] ds hnd
    unfold replaceRuns
    by_cases hd : isSlugChar d = true
    · rw [if_pos hd]
      rw [ih false hds hnd2 (by simp)]
    · rw [if_neg hd]
      have hdh : d = '-' := by
        have := hchars d (List.mem_cons_self _ _)
        unfold isSlugOrHyphen at this
        simp only [Bool.or_eq_true, beq_iff_eq] at this
        rcases this with h | h
        · exact absurd h hd
        · exact h
      cases b with
      | true =>
        exfalso
        apply hhead rfl
        rw [hdh]; rfl
      | false =>
        simp only [Bool.false_eq_true, if_false]
        have hnext : ds.head? ≠ some '-' := by
          cases ds with
          | nil => simp
          | cons x xs =>
            simp only [noDoubleHyphen, Bool.and_eq_true, Bool.not_eq_true', Bool.and_eq_false_imp,
              beq_iff_eq] at hnd
            intro hx
            have hx2 : x = '-' := by simpa using hx
            have := hnd.1 hdh
            simp [hx2] at this
        rw [ih true hds hnd2 (fun _ => hnext), hdh]

theorem dropWhile_hyphen_fixed (cs : List Char) (h : cs.head? ≠ some '-') :
    cs.dropWhile (fun c => c == '-') = cs := by
  cases cs with
  | nil => rfl
  | cons a t =>
    have ha : a ≠ '-' := by simpa using h
    rw [List.dropWhile_cons_of_neg (by simp [ha])]

theorem trimHyphens_fixed (cs : List Char) (hhead : cs.head? ≠ some '-')
    (hlast : cs.getLast? ≠ some '-') : trimHyphens cs = cs := by
  unfold trimHyphens
  rw [dropWhile_hyphen_fixed cs hhead,
    dropWhile_hyphen_fixed cs.reverse (by rw [List.head?_reverse]; exact hlast),
    List.reverse_reverse]

theorem slugify_of_plain (P : Platform) (s : String)
    (hchars : ∀ c ∈ s.data, isSlugOrHyphen c = true)
    (hP : P.normalizeNFKD s = s ∧ P.toLowerCase s = s) :
    slugify P s = String.mk ((trimHyphens (replaceRuns false s.data)).take 120) := by
  have hfilter : s.data.filter (fun c => !isCombiningMark c) = s.data := by
    rw [List.filter_eq_self]
    intro c hc
    simp [not_combining_of_slugOrHyphen c (hchars c hc)]
  have hmk : String.mk s.data = s := rfl
  unfold slugify
  simp only [hP.1, hfilter, hmk, hP.2]

/-- On a platform whose normalisation and lower-casing leave texts over
`a`-`z`, `0`-`9` and the hyphen alone, a slug that does not end with a hyphen
is a fixed point of `slugify`. -/
theorem slugify_fixed (P : Platform) (text : String)
    (hP : ∀ s : String, (∀ c ∈ s.data, isSlugOrHyphen c = true) →
      P.normalizeNFKD s = s ∧ P.toLowerCase s = s)
    (hlast : (slugify P text).data.getLast? ≠ some '-') :
    slugify P (slugify P text) = slugify P text := by
  obtain ⟨hlen, hchars, hnd, hhead, _⟩ := slugify_shape P text
  have hstep := slugify_of_plain P (slugify P text) hchars (hP _ hchars)
  rw [hstep, replaceRuns_fixed _ false hchars hnd (by simp),
    trimHyphens_fixed _ hhead hlast, List.take_of_length_le hlen]


/-- C14, failing input: on 119 letters followed by a hyphen and a letter the
cut at 120 characters comes after the trim, so the slug ends with a hyphen and
`slugify` does not return it unchanged. -/
theorem slugify_trailing_hyphen :
    slugify asciiPlatform longTitle = String.mk (List.replicate 119 'a' ++ ['-']) ∧
    (slugify asciiPlatform longTitle).data.getLast? = some '-' ∧
    slugify asciiPlatform (slugify asciiPlatform longTitle) =
      String.mk (List.replicate 119 'a') ∧
    slugify asciiPlatform (slugify asciiPlatform longTitle) ≠
      slugify asciiPlatform longTitle := by
  decide


/-! ## Source tags -/

theorem parseEntry_source (P : Platform) (item : RawItem) (d : String) (n : Entry)
    (h : parseEntry P item d = some n) :
    ∃ e, item = RawItem.obj e ∧ n.source = strOr e.source d := by
  cases item with
  | other v => simp [parseEntry] at h
  | obj e =>
    obtain ⟨m, hm, _, _, hsrc, _⟩ := parseEntry_obj P e d
    rw [hm] at h
    have : m = n := by simpa using h
    exact ⟨e, rfl, this ▸ hsrc⟩

theorem strOr_of_falsy (a : Option String) (d : String) (h : strOrNull a = none) :
    strOr a d = d := by
  cases a with
  | none => rfl
  | some s =>
    by_cases hs : s = ""
    · simp [strOr, hs]
    · simp [strOrNull, hs] at h

theorem aggregateStep_source (P : Platform) (aggregated : List (String × Entry))
    (record : Summary × Group) (h : ∀ p ∈ aggregated, p.2.source = "orcid") :
    ∀ p ∈ aggregateStep P aggregated record, p.2.source = "orcid" := by
  intro p hp
  unfold aggregateStep at hp
  cases hget : mapGet aggregated
      (strOr (normaliseSummary P record).groupIds.head? (normaliseSummary P record).id) with
  | none =>
    simp only [hget] at hp
    rcases mem_mapSet _ _ _ _ hp with h1 | h1
    · rw [h1]; rfl
    · exact h p h1
  | some existing =>
    simp only [hget] at hp
    rcases mem_mapSet _ _ _ _ hp with h1 | h1
    · rw [h1]
      show existing.source = "orcid"
      exact h (_, existing) (mem_of_mapGet _ _ _ hget)
    · exact h p h1

theorem foldl_aggregateStep_source (P : Platform) (records : List (Summary × Group)) :
    ∀ aggregated : List (String × Entry), (∀ p ∈ aggregated, p.2.source = "orcid") →
      ∀ p ∈ records.foldl (aggregateStep P) aggregated, p.2.source = "orcid" := by
  induction records with
  | nil => intro aggregated h; exact h
  | cons r rs ih =>
    intro aggregated h
    rw [List.foldl_cons]
    exact ih _ (aggregateStep_source P aggregated r h)

theorem aggregatePeerReviews_source (P : Platform) (payload : List Group) :
    ∀ e ∈ aggregatePeerReviews P payload, e.source = "orcid" := by
  intro e he
  unfold aggregatePeerReviews at he
  rw [mem_sortBy, List.mem_map] at he
  obtain ⟨item, hitem, hfin⟩ := he
  simp only [mapValues, List.mem_map] at hitem
  obtain ⟨p, hp, hpe⟩ := hitem
  have := foldl_aggregateStep_source P (collectSummaries payload) [] (by simp) p hp
  rw [← hfin, ← hpe]
  exact this

/-- Whatever the loop over the remote entries pushes for an item of the feed
has the source `orcid`. -/
theorem feed_emitted_source (P : Platform) (idx : List (String × Entry))
    (payload : List Group) (remote : RawItem) (hr : remote ∈ feedItems P payload)
    (out : Entry) (hout : emitEntry P idx remote = some out) : out.source = "orcid" := by
  unfold feedItems at hr
  obtain ⟨entry, hentry, heq⟩ := List.mem_map.mp hr
  have hsrc := aggregatePeerReviews_source P payload entry hentry
  unfold emitEntry at hout
  cases hp : parseEntry P remote "remote" with
  | none => simp [hp] at hout
  | some pr =>
    obtain ⟨e, he, hs⟩ := parseEntry_source P remote "remote" pr hp
    have hraw : e = entry.toRaw := by
      rw [he] at heq
      have := heq.symm
      simpa using this
    have hprs : pr.source = "orcid" := by
      rw [hs, hraw]
      show orElseStr entry.source "remote" = "orcid"
      rw [hsrc]
      rfl
    cases hf : findMatchingManual P pr idx with
    | none =>
      simp only [hp, hf, Option.some.injEq] at hout
      rw [← hout]; exact hprs
    | some mm =>
      simp only [hp, hf, Option.some.injEq] at hout
      rw [← hout]
      show (if pr.source = "remote" ∧ mm.source = "manual" then "merged" else pr.source) = _
      rw [hprs]
      rfl

/-- C12 (amended): every entry of the output of `mergeEntries` is an unmatched
remote entry, the merge of a matched pair or an unmatched manual entry, and
each of these is in the output with the following source. An unmatched remote
entry has the own source of its raw entry when that is non-empty and `remote`
otherwise; an unmatched manual entry has the own source of its raw entry when
that is non-empty and `manual` otherwise; the merge of a matched pair has
`merged` when the normalized remote source is `remote` and the normalized
manual source is `manual`, and the normalized remote source otherwise. When no
raw entry carries a source of its own, every output source is `manual`,
`remote` or `merged`. -/
theorem mergeEntries_sources (P : Platform) (manualEntries remoteEntries : List RawItem) :
    (∀ out ∈ mergeEntries P manualEntries remoteEntries,
      (∃ e, RawItem.obj e ∈ remoteEntries ∧
        parseEntry P (RawItem.obj e) "remote" = some out ∧
        findMatchingManual P out (buildManualIndex P manualEntries) = none ∧
        out.source = strOr e.source "remote") ∨
      (∃ remote ∈ remoteEntries, ∃ pr mm,
        MatchedBy P (buildManualIndex P manualEntries) remote pr mm ∧
        out = finalizeEntry P (mergePair P mm pr) ∧
        out.source =
          (if pr.source = "remote" ∧ mm.source = "manual" then "merged" else pr.source)) ∨
      (∃ e, RawItem.obj e ∈ manualEntries ∧
        parseEntry P (RawItem.obj e) "manual" = some out ∧
        out.source = strOr e.source "manual")) ∧
    (∀ e pr, RawItem.obj e ∈ remoteEntries →
      parseEntry P (RawItem.obj e) "remote" = some pr →
      findMatchingManual P pr (buildManualIndex P manualEntries) = none →
      pr ∈ mergeEntries P manualEntries remoteEntries ∧ pr.source = strOr e.source "remote") ∧
    (∀ remote ∈ remoteEntries, ∀ pr mm,
      MatchedBy P (buildManualIndex P manualEntries) remote pr mm →
      finalizeEntry P (mergePair P mm pr) ∈ mergeEntries P manualEntries remoteEntries ∧
      (finalizeEntry P (mergePair P mm pr)).source =
        (if pr.source = "remote" ∧ mm.source = "manual" then "merged" else pr.source) ∧
      (∃ e, remote = RawItem.obj e ∧ pr.source = strOr e.source "remote") ∧
      (∃ e, RawItem.obj e ∈ manualEntries ∧ mm.source = strOr e.source "manual")) ∧
    (∀ k m, (k, m) ∈ buildManualIndex P manualEntries →
      k ∉ (processRemote P (buildManualIndex P manualEntries) remoteEntries).consumedManual →
      m ∈ mergeEntries P manualEntries remoteEntries ∧
      ∃ e, RawItem.obj e ∈ manualEntries ∧
        parseEntry P (RawItem.obj e) "manual" = some m ∧
        m.source = strOr e.source "manual") ∧
    ((∀ e, RawItem.obj e ∈ manualEntries → strOrNull e.source = none) →
      (∀ e, RawItem.obj e ∈ remoteEntries → strOrNull e.source = none) →
      ∀ out ∈ mergeEntries P manualEntries remoteEntries,
        out.source = "manual" ∨ out.source = "remote" ∨ out.source = "merged") := by
  have hmanual : ∀ k m, (k, m) ∈ buildManualIndex P manualEntries →
      ∃ e, RawItem.obj e ∈ manualEntries ∧
        parseEntry P (RawItem.obj e) "manual" = some m ∧
        m.source = strOr e.source "manual" := by
    intro k m hk
    obtain ⟨item, hitem, hparse⟩ := buildManualIndex_parsed P manualEntries (k, m) hk
    obtain ⟨e, he, hsrc⟩ := parseEntry_source P item "manual" m hparse
    subst he
    exact ⟨e, hitem, hparse, hsrc⟩
  have hcases : ∀ out ∈ mergeEntries P manualEntries remoteEntries,
      (∃ e, RawItem.obj e ∈ remoteEntries ∧
        parseEntry P (RawItem.obj e) "remote" = some out ∧
        findMatchingManual P out (buildManualIndex P manualEntries) = none ∧
        out.source = strOr e.source "remote") ∨
      (∃ remote ∈ remoteEntries, ∃ pr mm,
        MatchedBy P (buildManualIndex P manualEntries) remote pr mm ∧
        out = finalizeEntry P (mergePair P mm pr) ∧
        out.source =
          (if pr.source = "remote" ∧ mm.source = "manual" then "merged" else pr.source)) ∨
      (∃ e, RawItem.obj e ∈ manualEntries ∧
        parseEntry P (RawItem.obj e) "manual" = some out ∧
        out.source = strOr e.source "manual") := by
    intro out hout
    rw [mem_mergeEntries] at hout
    rcases mergedBeforeSort_cases P manualEntries remoteEntries out hout with
      ⟨r, hr, hp, hnone⟩ | ⟨r, hr, pr, mm, hmatch, hout2⟩ | ⟨k, hk, _⟩
    · obtain ⟨e, he, hsrc⟩ := parseEntry_source P r "remote" out hp
      subst he
      exact Or.inl ⟨e, hr, hp, hnone, hsrc⟩
    · right; left
      have hfin := finalizeEntry_of_canonical P _ (mergePair_canonical P mm pr)
      refine ⟨r, hr, pr, mm, hmatch, by rw [hfin]; exact hout2, ?_⟩
      rw [hout2]
      rfl
    · exact Or.inr (Or.inr (hmanual k out hk))
  refine ⟨hcases, ?_, ?_, ?_, ?_⟩
  · intro e pr he hp hnone
    obtain ⟨e2, he2, hsrc⟩ := parseEntry_source P (RawItem.obj e) "remote" pr hp
    have hee : e = e2 := by simpa using he2
    subst hee
    refine ⟨?_, hsrc⟩
    rw [mem_mergeEntries]
    unfold mergedBeforeSort
    apply List.mem_append_left
    rw [List.mem_filterMap]
    refine ⟨RawItem.obj e, he, ?_⟩
    unfold emitEntry
    rw [hp]
    simp only [hnone]
  · intro remote hr pr mm hmatch
    obtain ⟨hfin, hout⟩ :=
      matched_emitted P manualEntries remoteEntries remote pr mm hr hmatch
    obtain ⟨_, _, hmem⟩ := matched_canonical P manualEntries remote pr mm hmatch
    obtain ⟨e, he, hsrc⟩ := parseEntry_source P remote "remote" pr hmatch.1
    obtain ⟨e2, he2, _, hsrc2⟩ := hmanual mm.id mm hmem
    refine ⟨by rw [hfin]; exact hout, by rw [hfin]; rfl, ⟨e, he, hsrc⟩, ⟨e2, he2, hsrc2⟩⟩
  · intro k m hk hnc
    refine ⟨?_, hmanual k m hk⟩
    rw [mem_mergeEntries]
    unfold mergedBeforeSort
    apply List.mem_append_right
    rw [mem_leftoverManual]
    exact ⟨k, hk, hnc⟩
  · intro hM hR out hout
    rcases hcases out hout with ⟨e, he, _, _, hsrc⟩ | ⟨r, hr, pr, mm, hmatch, _, hsrc⟩ |
      ⟨e, he, _, hsrc⟩
    · right; left
      rw [hsrc, strOr_of_falsy _ _ (hR e he)]
    · by_cases hc : pr.source = "remote" ∧ mm.source = "manual"
      · right; right
        rw [hsrc, if_pos hc]
      · rw [if_neg hc] at hsrc
        obtain ⟨e, he, hs⟩ := parseEntry_source P r "remote" pr hmatch.1
        subst he
        right; left
        rw [hsrc, hs, strOr_of_falsy _ _ (hR e hr)]
    · left
      rw [hsrc, strOr_of_falsy _ _ (hM e he)]

/-- C12, counterexample: an entry that `aggregatePeerReviews` builds from a
payload is merged with a manual entry and comes out of `mergeEntries` with the
source `orcid`, and a manual entry tagged `archive` keeps that tag. -/
theorem mergeEntries_sources_counterexample :
    (∃ out ∈ mergeEntries asciiPlatform [sampleManual, taggedManual]
        (feedItems asciiPlatform samplePayload), out.source = "orcid") ∧
    (∃ out ∈ mergeEntries asciiPlatform [sampleManual, taggedManual]
        (feedItems asciiPlatform samplePayload), out.source = "archive") ∧
    ¬ ∀ out ∈ mergeEntries asciiPlatform [sampleManual, taggedManual]
        (feedItems asciiPlatform samplePayload),
      out.source = "manual" ∨ out.source = "remote" ∨ out.source = "merged" := by
  decide

end PeerReviews
